import Mathlib

/-!
Verification of the em-cpp-interface-generator core: a shallow embedding of
the entity model, name mangling, flatten pass, overload grouping, container
filter, tagging renderer and the mangled-name helper layer from
`em_cpp_interface_generator.py` and `style_sheets/shared_helpers.py`.
-/

namespace EmCppGen

/-! ## Overload grouper: `FunctionHomonymic` / `Functions` / `Constructors` -/

/-- Fields of a `FunctionMeta` object relevant to overload grouping
(`FunctionMeta.__init__` / `process` in `em_cpp_interface_generator.py`). -/
structure FunctionMetaRec where
  ast_name : String
  full_name : String
  args_count : Nat
  is_overloaded : Bool
  should_be_ignored : Bool
  ignored_reason : String
  deriving DecidableEq, Repr

/-- A freshly constructed `FunctionMeta` carrying no disqualifying parameter
types: `is_overloaded` and `should_be_ignored` start out `False`. -/
def mkFunctionMeta (name fullName : String) (argsCount : Nat) : FunctionMetaRec :=
  ⟨name, fullName, argsCount, false, false, ""⟩

/-- The reason string `FunctionHomonymic.add_function` assigns on an arity
collision (f-string in the source). -/
def arityCollisionReason (fullName : String) : String :=
  "overloaded function with same amount of paramters(embind does not support): " ++ fullName

/-- `FunctionHomonymic.add_function`: mark the incoming function overloaded when
the group is nonempty, retroactively mark the sole previous member overloaded
when the group has exactly one element, optionally suppress the incoming
function on an arity collision, then append it. -/
def FunctionHomonymic.add_function (group : List FunctionMetaRec) (m : FunctionMetaRec)
    (check_args_count : Bool) : List FunctionMetaRec :=
  let m1 := if group.length > 0 then { m with is_overloaded := true } else m
  let group1 := match group with
    | [f] => [{ f with is_overloaded := true }]
    | g => g
  let m2 := if check_args_count && group1.any (fun f => f.args_count == m1.args_count) then
      { m1 with should_be_ignored := true,
                ignored_reason := arityCollisionReason m1.full_name }
    else m1
  group1 ++ [m2]

/-- `Functions.functionIndexedByName` as an insertion-ordered association list. -/
abbrev FunctionsCol := List (String × List FunctionMetaRec)

/-- `Functions.add_function`: create the homonymic group on first use of a name,
then delegate to `FunctionHomonymic.add_function`. -/
def Functions.add_function (fns : FunctionsCol) (f : FunctionMetaRec)
    (check_args_count : Bool) : FunctionsCol :=
  if fns.any (fun p => p.1 == f.ast_name) then
    fns.map (fun p =>
      if p.1 == f.ast_name then (p.1, FunctionHomonymic.add_function p.2 f check_args_count)
      else p)
  else
    fns ++ [(f.ast_name, FunctionHomonymic.add_function [] f check_args_count)]

/-- `Constructors.add_function`: same as `Functions.add_function` but
`check_args_count` defaults to `True`. -/
def Constructors.add_function (fns : FunctionsCol) (f : FunctionMetaRec) : FunctionsCol :=
  Functions.add_function fns f true

/-- Overload flags of each group of a `Functions` collection, by name. -/
def overloadFlags (fns : FunctionsCol) : List (String × List Bool) :=
  fns.map (fun p => (p.1, p.2.map FunctionMetaRec.is_overloaded))

/-- Ignore flag and reason of each group member of a `Functions` collection. -/
def ignoreStates (fns : FunctionsCol) : List (String × List (Bool × String)) :=
  fns.map (fun p => (p.1, p.2.map (fun f => (f.should_be_ignored, f.ignored_reason))))

/-- Check whether `hay` starts with `needle`: the embedding of Python's
`str.startswith` on character lists. -/
def listStartsWith : List Char → List Char → Bool
  | _, [] => true
  | [], _ :: _ => false
  | a :: as, b :: bs => a == b && listStartsWith as bs

/-- Substring test on character lists: the embedding of Python's
`needle in hay` on strings. -/
def listContains (hay needle : List Char) : Bool :=
  listStartsWith hay needle ||
    match hay with
    | [] => false
    | _ :: t => listContains t needle

/-- The `flagFirst`/`newcomerOf` decomposition of
`FunctionHomonymic.add_function`: the retroactive overload marking of the
first member when a second arrives. -/
def flagFirst (g : List FunctionMetaRec) : List FunctionMetaRec :=
  match g with
  | [f] => [{ f with is_overloaded := true }]
  | g => g

/-- The element appended by `FunctionHomonymic.add_function`: the incoming
function with its overload and ignore flags updated. -/
def newcomerOf (g : List FunctionMetaRec) (m : FunctionMetaRec) (check : Bool) :
    FunctionMetaRec :=
  let m1 := if g.length > 0 then { m with is_overloaded := true } else m
  if check && (flagFirst g).any (fun f => f.args_count == m1.args_count) then
    { m1 with should_be_ignored := true,
              ignored_reason := arityCollisionReason m1.full_name }
  else m1

end EmCppGen

namespace EmCppGen

/-! ## Theorems for claims C3 and C4 -/

theorem last_overloaded_of_nonempty (g : List FunctionMetaRec) (m : FunctionMetaRec)
    (check : Bool) (hg : 0 < g.length) :
    ((FunctionHomonymic.add_function g m check).getLast?).map FunctionMetaRec.is_overloaded
      = some true := by
  unfold FunctionHomonymic.add_function
  rw [if_pos hg]
  simp only [List.getLast?_concat, Option.map_some']
  split <;> rfl

/-- C3: the first addition to an overload group leaves its sole member with
`is_overloaded = false`; the second addition marks both the first and the
second member; every later addition arrives already marked; in particular
three same-named sibling functions added in order all end up overloaded. -/
theorem c3_overload_flagging
    (g : List FunctionMetaRec) (m : FunctionMetaRec) (check : Bool)
    (n fn1 fn2 fn3 : String) (a1 a2 a3 : Nat)
    (hg : 1 ≤ g.length) :
    ((FunctionHomonymic.add_function g m check).getLast?).map FunctionMetaRec.is_overloaded
        = some true
    ∧ overloadFlags (Functions.add_function [] (mkFunctionMeta n fn1 a1) false)
        = [(n, [false])]
    ∧ overloadFlags (Functions.add_function
          (Functions.add_function [] (mkFunctionMeta n fn1 a1) false)
          (mkFunctionMeta n fn2 a2) false)
        = [(n, [true, true])]
    ∧ overloadFlags (Functions.add_function (Functions.add_function
          (Functions.add_function [] (mkFunctionMeta n fn1 a1) false)
          (mkFunctionMeta n fn2 a2) false) (mkFunctionMeta n fn3 a3) false)
        = [(n, [true, true, true])] := by
  refine ⟨last_overloaded_of_nonempty g m check hg, ?_, ?_, ?_⟩
  · simp [Functions.add_function, FunctionHomonymic.add_function, overloadFlags, mkFunctionMeta]
  · simp [Functions.add_function, FunctionHomonymic.add_function, overloadFlags, mkFunctionMeta]
  · simp [Functions.add_function, FunctionHomonymic.add_function, overloadFlags, mkFunctionMeta]

theorem c3_overload_flagging_witness :
    1 ≤ [mkFunctionMeta "f" "app::f" 1].length
    ∧ (((FunctionHomonymic.add_function [mkFunctionMeta "f" "app::f" 1]
          (mkFunctionMeta "f" "app::f" 2) false).getLast?).map FunctionMetaRec.is_overloaded
        = some true
      ∧ overloadFlags (Functions.add_function [] (mkFunctionMeta "f" "app::f" 1) false)
          = [("f", [false])]
      ∧ overloadFlags (Functions.add_function
            (Functions.add_function [] (mkFunctionMeta "f" "app::f" 1) false)
            (mkFunctionMeta "f" "app::f" 2) false)
          = [("f", [true, true])]
      ∧ overloadFlags (Functions.add_function (Functions.add_function
            (Functions.add_function [] (mkFunctionMeta "f" "app::f" 1) false)
            (mkFunctionMeta "f" "app::f" 2) false) (mkFunctionMeta "f" "app::f" 3) false)
          = [("f", [true, true, true])]) :=
  ⟨by decide,
   c3_overload_flagging [mkFunctionMeta "f" "app::f" 1] (mkFunctionMeta "f" "app::f" 2) false
     "f" "app::f" "app::f" "app::f" 1 2 3 (by decide)⟩

end EmCppGen

namespace EmCppGen

theorem listStartsWith_append (n : List Char) : ∀ (h t : List Char),
    listStartsWith h n = true → listStartsWith (h ++ t) n = true := by
  induction n with
  | nil =>
    intro h t _
    cases h ++ t with
    | nil => rfl
    | cons x xs => rfl
  | cons b bs ih =>
    intro h t hp
    cases h with
    | nil => simp [listStartsWith] at hp
    | cons a as =>
      have hred : listStartsWith (a :: as) (b :: bs) = (a == b && listStartsWith as bs) := rfl
      rw [hred] at hp
      have hred2 : listStartsWith (a :: (as ++ t)) (b :: bs)
          = (a == b && listStartsWith (as ++ t) bs) := rfl
      rw [List.cons_append, hred2]
      cases hab : a == b with
      | false => rw [hab] at hp; simp at hp
      | true =>
        rw [hab] at hp
        simp only [Bool.true_and] at hp ⊢
        exact ih as t hp

theorem listContains_of_startsWith (h n : List Char) (hp : listStartsWith h n = true) :
    listContains h n = true := by
  cases h <;> simp [listContains, hp]

theorem add_function_eq (g : List FunctionMetaRec) (m : FunctionMetaRec) (check : Bool) :
    FunctionHomonymic.add_function g m check = flagFirst g ++ [newcomerOf g m check] := rfl

theorem take_add_function (g : List FunctionMetaRec) (m : FunctionMetaRec) (check : Bool) :
    ((FunctionHomonymic.add_function g m check).take g.length).map
        FunctionMetaRec.should_be_ignored
      = g.map FunctionMetaRec.should_be_ignored := by
  unfold FunctionHomonymic.add_function
  rcases g with _ | ⟨f, _ | ⟨f2, rest⟩⟩ <;> simp

/-- C4: with arity-conflict checking enabled (always the case through
`Constructors.add_function`) an arity match marks only the newcomer ignored,
with the collision reason; previously added members keep their ignore flags;
two same-arity constructors leave the first unsuppressed and the second
suppressed with a reason mentioning the overload conflict. -/
theorem c4_arity_collision_suppression
    (g : List FunctionMetaRec) (m : FunctionMetaRec) (check : Bool)
    (n fn1 fn2 : String) (a : Nat)
    (hmatch : ∃ f ∈ g, f.args_count = m.args_count) :
    ((FunctionHomonymic.add_function g m check).take g.length).map
        FunctionMetaRec.should_be_ignored
      = g.map FunctionMetaRec.should_be_ignored
    ∧ ((FunctionHomonymic.add_function g m true).getLast?).map
        (fun f => (f.should_be_ignored, f.ignored_reason))
      = some (true, arityCollisionReason m.full_name)
    ∧ ignoreStates (Constructors.add_function
          (Constructors.add_function [] (mkFunctionMeta n fn1 a)) (mkFunctionMeta n fn2 a))
      = [(n, [(false, ""), (true, arityCollisionReason fn2)])]
    ∧ listContains (arityCollisionReason fn2).toList "overload".toList = true := by
  refine ⟨take_add_function g m check, ?_, ?_, ?_⟩
  · obtain ⟨f, hf, hfa⟩ := hmatch
    rw [add_function_eq, List.getLast?_concat, Option.map_some']
    have hg : 0 < g.length := List.length_pos.mpr (fun hgnil => by simp [hgnil] at hf)
    have hany : (flagFirst g).any (fun f' => f'.args_count == m.args_count) = true := by
      rcases g with _ | ⟨f1, _ | ⟨f2, rest2⟩⟩
      · simp at hf
      · simp only [List.mem_singleton] at hf
        subst hf
        simp [flagFirst, hfa]
      · simp only [flagFirst, List.any_eq_true]
        exact ⟨f, hf, by simp [hfa]⟩
    unfold newcomerOf
    rw [if_pos hg]
    rw [if_pos (show (true && (flagFirst g).any fun f' =>
        f'.args_count == ({ m with is_overloaded := true } : FunctionMetaRec).args_count) = true
      by simpa using hany)]
  · simp [ignoreStates, Constructors.add_function, Functions.add_function,
      FunctionHomonymic.add_function, mkFunctionMeta]
  · apply listContains_of_startsWith
    have : (arityCollisionReason fn2).toList
        = "overloaded function with same amount of paramters(embind does not support): ".toList
          ++ fn2.toList := by
      simp [arityCollisionReason, String.toList]
    rw [this]
    exact listStartsWith_append _ _ _ (by decide)

theorem c4_arity_collision_suppression_witness :
    (∃ f ∈ [mkFunctionMeta "C" "app::C" 2], f.args_count = (mkFunctionMeta "C" "app::C" 2).args_count)
    ∧ (((FunctionHomonymic.add_function [mkFunctionMeta "C" "app::C" 2]
            (mkFunctionMeta "C" "app::C" 2) false).take 1).map FunctionMetaRec.should_be_ignored
        = [mkFunctionMeta "C" "app::C" 2].map FunctionMetaRec.should_be_ignored
      ∧ ((FunctionHomonymic.add_function [mkFunctionMeta "C" "app::C" 2]
            (mkFunctionMeta "C" "app::C" 2) true).getLast?).map
            (fun f => (f.should_be_ignored, f.ignored_reason))
        = some (true, arityCollisionReason "app::C")
      ∧ ignoreStates (Constructors.add_function
            (Constructors.add_function [] (mkFunctionMeta "C" "app::C" 2))
            (mkFunctionMeta "C" "app::C" 2))
        = [("C", [(false, ""), (true, arityCollisionReason "app::C")])]
      ∧ listContains (arityCollisionReason "app::C").toList "overload".toList = true) :=
  ⟨⟨mkFunctionMeta "C" "app::C" 2, by simp, rfl⟩,
   c4_arity_collision_suppression [mkFunctionMeta "C" "app::C" 2] (mkFunctionMeta "C" "app::C" 2)
     false "C" "app::C" "app::C" 2 ⟨mkFunctionMeta "C" "app::C" 2, by simp, rfl⟩⟩

end EmCppGen

namespace EmCppGen

/-! ## Container-usage collector: `STLContainerFilter` -/

/-- A clang `Type` as consumed by `STLContainerFilter`: its spelling, whether
its kind is an lvalue or rvalue reference, and the pointee type carried by a
reference. -/
inductive CxxType : Type where
  | mk (spelling : String) (is_reference : Bool) (pointee : Option CxxType)

def CxxType.spelling : CxxType → String
  | .mk s _ _ => s

def CxxType.is_reference : CxxType → Bool
  | .mk _ r _ => r

/-- `Type.get_pointee()` as used by the filter; the filter only calls it on
reference types, which carry a pointee. -/
def CxxType.get_pointee : CxxType → CxxType
  | .mk _ _ (some p) => p
  | t => t

/-- The fixed allow-list `stl_containers_can_be_registered`. -/
def stl_containers_can_be_registered : List String := ["std::vector", "std::map"]

/-- Assignment into the `types_can_be_registered` dict: Python dict assignment
keeps the insertion position of an existing key and overwrites its value,
otherwise appends a new entry. -/
def dictSet (reg : List (String × CxxType)) (k : String) (v : CxxType) :
    List (String × CxxType) :=
  if reg.any (fun p => p.1 == k) then
    reg.map (fun p => if p.1 == k then (k, v) else p)
  else reg ++ [(k, v)]

/-- The body of the inner loop of `STLContainerFilter.filter`: if the use
site's spelling mentions the allow-listed template, unwrap one level of
reference-ness and record the result under its spelling. -/
def stlConsider (stl : String) (reg : List (String × CxxType)) (used : CxxType) :
    List (String × CxxType) :=
  if listContains used.spelling.toList stl.toList then
    let u := if used.is_reference then used.get_pointee else used
    dictSet reg u.spelling u
  else reg

/-- `STLContainerFilter.filter` applied to one entity whose
`get_all_relavant_types()` result is `types`. -/
def STLContainerFilter.filter (reg : List (String × CxxType)) (types : List CxxType) :
    List (String × CxxType) :=
  stl_containers_can_be_registered.foldl (fun reg1 stl =>
    types.foldl (stlConsider stl) reg1) reg

/-- `ProjectMetaInfoPump.pump` restricted to the single registered
`STLContainerFilter`: fold the filter over every pumped entity's
relevant-type list, starting from the empty dict. -/
def STLContainerFilter.run (metas : List (List CxxType)) : List (String × CxxType) :=
  metas.foldl STLContainerFilter.filter []

/-- Does a type match some allow-listed container template (the source's
substring test)? -/
def matchesSTL (t : CxxType) : Bool :=
  stl_containers_can_be_registered.any (fun stl => listContains t.spelling.toList stl.toList)

/-- The canonical instantiation spelling recorded for a matching use site:
one level of reference-ness is unwrapped first. -/
def recordedSpelling (t : CxxType) : String :=
  (if t.is_reference then t.get_pointee else t).spelling

end EmCppGen

namespace EmCppGen

/-! ## Theorems for claim C5 -/

theorem dictSet_keys (reg : List (String × CxxType)) (k : String) (v : CxxType) :
    (dictSet reg k v).map Prod.fst =
      if reg.any (fun p => p.1 == k) then reg.map Prod.fst else reg.map Prod.fst ++ [k] := by
  unfold dictSet
  split
  · rw [List.map_map]
    apply List.map_congr_left
    intro p _
    by_cases h : p.1 = k
    · simp [h]
    · simp [h]
  · simp

theorem mem_dictSet_keys (reg : List (String × CxxType)) (k : String) (v : CxxType)
    (s : String) :
    s ∈ (dictSet reg k v).map Prod.fst ↔ s ∈ reg.map Prod.fst ∨ s = k := by
  rw [dictSet_keys]
  split
  · rename_i hany
    constructor
    · exact Or.inl
    · rintro (h | rfl)
      · exact h
      · simp only [List.any_eq_true] at hany
        obtain ⟨p, hp, hpk⟩ := hany
        have hps : p.1 = s := by simpa using hpk
        exact hps ▸ List.mem_map_of_mem Prod.fst hp
  · simp

theorem nodup_dictSet_keys (reg : List (String × CxxType)) (k : String) (v : CxxType)
    (h : (reg.map Prod.fst).Nodup) : ((dictSet reg k v).map Prod.fst).Nodup := by
  rw [dictSet_keys]
  split
  · exact h
  · rename_i hany
    simp only [List.nodup_append, List.nodup_singleton, true_and]
    refine ⟨h, ?_⟩
    intro a ha hak
    simp only [List.mem_singleton] at hak
    subst hak
    simp only [List.mem_map] at ha
    obtain ⟨p, hp, hpa⟩ := ha
    exact hany (List.any_eq_true.mpr ⟨p, hp, by simp [hpa]⟩)

theorem mem_stlConsider_fold_keys (stl : String) (types : List CxxType) :
    ∀ (reg : List (String × CxxType)) (s : String),
    s ∈ ((types.foldl (stlConsider stl) reg).map Prod.fst)
      ↔ s ∈ reg.map Prod.fst
        ∨ ∃ t ∈ types, listContains t.spelling.toList stl.toList = true
            ∧ recordedSpelling t = s := by
  induction types with
  | nil => intro reg s; simp
  | cons t rest ih =>
    intro reg s
    rw [List.foldl_cons, ih]
    unfold stlConsider
    by_cases h : listContains t.spelling.toList stl.toList = true
    · rw [if_pos h, mem_dictSet_keys]
      constructor
      · rintro ((hmem | rfl) | ⟨t', ht', hc, hr⟩)
        · exact Or.inl hmem
        · exact Or.inr ⟨t, List.mem_cons_self t rest, h, rfl⟩
        · exact Or.inr ⟨t', List.mem_cons_of_mem t ht', hc, hr⟩
      · rintro (hmem | ⟨t', ht', hc, hr⟩)
        · exact Or.inl (Or.inl hmem)
        · rcases List.mem_cons.mp ht' with rfl | ht'
          · exact Or.inl (Or.inr hr.symm)
          · exact Or.inr ⟨t', ht', hc, hr⟩
    · rw [if_neg h]
      constructor
      · rintro (hmem | ⟨t', ht', hc, hr⟩)
        · exact Or.inl hmem
        · exact Or.inr ⟨t', List.mem_cons_of_mem t ht', hc, hr⟩
      · rintro (hmem | ⟨t', ht', hc, hr⟩)
        · exact Or.inl hmem
        · rcases List.mem_cons.mp ht' with rfl | ht'
          · exact absurd hc h
          · exact Or.inr ⟨t', ht', hc, hr⟩

theorem nodup_stlConsider_fold_keys (stl : String) (types : List CxxType) :
    ∀ (reg : List (String × CxxType)), (reg.map Prod.fst).Nodup →
    ((types.foldl (stlConsider stl) reg).map Prod.fst).Nodup := by
  induction types with
  | nil => intro reg h; simpa using h
  | cons t rest ih =>
    intro reg h
    rw [List.foldl_cons]
    apply ih
    unfold stlConsider
    split
    · exact nodup_dictSet_keys _ _ _ h
    · exact h

theorem mem_stls_fold_keys (types : List CxxType) (stls : List String) :
    ∀ (reg : List (String × CxxType)) (s : String),
    s ∈ ((stls.foldl (fun reg1 stl => types.foldl (stlConsider stl) reg1) reg).map Prod.fst)
      ↔ s ∈ reg.map Prod.fst
        ∨ ∃ t ∈ types, (stls.any fun stl => listContains t.spelling.toList stl.toList) = true
            ∧ recordedSpelling t = s := by
  induction stls with
  | nil => intro reg s; simp
  | cons stl rest ih =>
    intro reg s
    rw [List.foldl_cons, ih, mem_stlConsider_fold_keys]
    constructor
    · rintro ((hmem | ⟨t, ht, hc, hr⟩) | ⟨t, ht, hc, hr⟩)
      · exact Or.inl hmem
      · refine Or.inr ⟨t, ht, ?_, hr⟩
        simp only [List.any_cons, Bool.or_eq_true]
        exact Or.inl hc
      · refine Or.inr ⟨t, ht, ?_, hr⟩
        simp only [List.any_cons, Bool.or_eq_true]
        exact Or.inr hc
    · rintro (hmem | ⟨t, ht, hc, hr⟩)
      · exact Or.inl (Or.inl hmem)
      · simp only [List.any_cons, Bool.or_eq_true] at hc
        rcases hc with hc | hc
        · exact Or.inl (Or.inr ⟨t, ht, hc, hr⟩)
        · exact Or.inr ⟨t, ht, hc, hr⟩

theorem nodup_stls_fold_keys (types : List CxxType) (stls : List String) :
    ∀ (reg : List (String × CxxType)), (reg.map Prod.fst).Nodup →
    ((stls.foldl (fun reg1 stl => types.foldl (stlConsider stl) reg1) reg).map Prod.fst).Nodup := by
  induction stls with
  | nil => intro reg h; simpa using h
  | cons stl rest ih =>
    intro reg h
    rw [List.foldl_cons]
    exact ih _ (nodup_stlConsider_fold_keys stl types reg h)

theorem mem_run_fold_keys (metas : List (List CxxType)) :
    ∀ (reg : List (String × CxxType)) (s : String),
    s ∈ ((metas.foldl STLContainerFilter.filter reg).map Prod.fst)
      ↔ s ∈ reg.map Prod.fst
        ∨ ∃ types ∈ metas, ∃ t ∈ types, matchesSTL t = true ∧ recordedSpelling t = s := by
  induction metas with
  | nil => intro reg s; simp
  | cons types rest ih =>
    intro reg s
    rw [List.foldl_cons, ih]
    unfold STLContainerFilter.filter
    rw [mem_stls_fold_keys]
    constructor
    · rintro ((hmem | ⟨t, ht, hc, hr⟩) | ⟨ts, hts, t, ht, hc, hr⟩)
      · exact Or.inl hmem
      · exact Or.inr ⟨types, List.mem_cons_self types rest, t, ht, hc, hr⟩
      · exact Or.inr ⟨ts, List.mem_cons_of_mem types hts, t, ht, hc, hr⟩
    · rintro (hmem | ⟨ts, hts, t, ht, hc, hr⟩)
      · exact Or.inl (Or.inl hmem)
      · rcases List.mem_cons.mp hts with rfl | hts
        · exact Or.inl (Or.inr ⟨t, ht, hc, hr⟩)
        · exact Or.inr ⟨ts, hts, t, ht, hc, hr⟩

theorem nodup_run_fold_keys (metas : List (List CxxType)) :
    ∀ (reg : List (String × CxxType)), (reg.map Prod.fst).Nodup →
    ((metas.foldl STLContainerFilter.filter reg).map Prod.fst).Nodup := by
  induction metas with
  | nil => intro reg h; simpa using h
  | cons types rest ih =>
    intro reg h
    rw [List.foldl_cons]
    exact ih _ (nodup_stls_fold_keys types stl_containers_can_be_registered reg h)

/-- C5: the container-usage collector registers exactly one synthetic
container instance per distinct recorded canonical spelling — the key list is
duplicate-free and a spelling is present iff some use site's relevant type
matches the allow-list with that recorded (reference-unwrapped) spelling; two
use sites of `std::vector<int>` plus one of `std::vector<double>` yield
exactly 2 registered instances, not 3. -/
theorem c5_container_dedup (metas : List (List CxxType)) (s : String) :
    ((STLContainerFilter.run metas).map Prod.fst).Nodup
    ∧ (s ∈ (STLContainerFilter.run metas).map Prod.fst
        ↔ ∃ types ∈ metas, ∃ t ∈ types, matchesSTL t = true ∧ recordedSpelling t = s)
    ∧ (STLContainerFilter.run
        [[CxxType.mk "std::vector<int>" false none],
         [CxxType.mk "std::vector<int>" false none],
         [CxxType.mk "std::vector<double>" false none]]).length = 2 := by
  refine ⟨nodup_run_fold_keys metas [] (by simp), ?_, ?_⟩
  · rw [show STLContainerFilter.run metas = metas.foldl STLContainerFilter.filter [] from rfl,
      mem_run_fold_keys]
    simp
  · rfl

end EmCppGen

namespace EmCppGen

/-! ## Renderer: `MetaInfo.tagging` with the default templates -/

/-- The `gather_tagging_info` fields consumed by the default
`tagging_template`, together with the ignore state of the entity.
`tagging_pfx`/`tagging_sfx` are `get_tagging_prefix()`/`get_tagging_suffix()`. -/
structure TagInfo where
  tagging_pfx : String
  tagging_type : String
  tagging_name : String
  full_name : String
  tagging_sfx : String
  should_be_ignored : Bool
  ignored_reason : String
  deriving DecidableEq, Repr

/-- The default `tagging_template`
`%(prefix)s%(tagging_type)s("%(tagging_name)s", &%(full_name)s)%(suffix)s`
filled in from `gather_tagging_info`. -/
def taggingContent (e : TagInfo) : String :=
  e.tagging_pfx ++ e.tagging_type ++ "(\"" ++ e.tagging_name ++ "\", &" ++ e.full_name
    ++ ")" ++ e.tagging_sfx

/-- `MetaInfo.comment_content` with the default `comment_template`. -/
def comment_content (content : String) : String :=
  "/*" ++ content ++ "*/"

/-- Split on a single separator character: the embedding of Python's
`str.split` with a one-character separator, with an accumulator for the
segment being scanned. -/
def splitChar (sep : Char) : List Char → List Char → List (List Char)
  | [], acc => [acc.reverse]
  | c :: rest, acc =>
    if c = sep then acc.reverse :: splitChar sep rest []
    else splitChar sep rest (c :: acc)

/-- Join with a single separator character: the embedding of Python's
`sep.join`. -/
def joinChar (sep : Char) : List String → String
  | [] => ""
  | [l] => l
  | l :: rest => l ++ String.mk [sep] ++ joinChar sep rest

/-- `MetaInfo.tagging` with the default templates and indent width: render the
templated fragment, and when the entity is ignored comment the fragment out,
prepend the reason line and log the reason; finally indent every physical
line. Returns the rendered fragment and the logged lines. -/
def MetaInfo.tagging (e : TagInfo) (indent : Nat) : String × List String :=
  let spaces := String.mk (List.replicate (indent * 4) ' ')
  let tagging_content := taggingContent e
  let (content1, logs) :=
    if e.should_be_ignored then
      let reason := "Ignored due to: " ++ e.ignored_reason
      ("// " ++ reason ++ "\n" ++ comment_content tagging_content, [reason])
    else (tagging_content, [])
  let lines := (splitChar '\n' content1.toList []).map (fun l => spaces ++ String.mk l)
  (joinChar '\n' lines, logs)

end EmCppGen

namespace EmCppGen

/-! ## Theorems for claim C8 -/

theorem splitChar_of_not_mem (sep : Char) (l : List Char) (hl : sep ∉ l) :
    ∀ acc, splitChar sep l acc = [acc.reverse ++ l] := by
  induction l with
  | nil => intro acc; simp [splitChar]
  | cons c rest ih =>
    intro acc
    have hc : ¬ c = sep := fun h => hl (h ▸ List.mem_cons_self c rest)
    have hrest : sep ∉ rest := fun h => hl (List.mem_cons_of_mem c h)
    rw [splitChar, if_neg hc, ih hrest]
    simp

theorem splitChar_single_sep (sep : Char) (A B : List Char) (hA : sep ∉ A) (hB : sep ∉ B) :
    splitChar sep (A ++ sep :: B) [] = [A, B] := by
  have key : ∀ acc, splitChar sep (A ++ sep :: B) acc = (acc.reverse ++ A) :: [B] := by
    induction A with
    | nil =>
      intro acc
      rw [List.nil_append, splitChar, if_pos rfl, splitChar_of_not_mem sep B hB]
      simp
    | cons c rest ih =>
      intro acc
      have hc : ¬ c = sep := fun h => hA (h ▸ List.mem_cons_self c rest)
      have hrest : sep ∉ rest := fun h => hA (List.mem_cons_of_mem c h)
      rw [List.cons_append, splitChar, if_neg hc, ih hrest]
      simp
  simpa using key []

/-- C8: rendering an ignored entity still emits its fragment: the output is
the indented reason line (containing the ignored reason) followed by the
indented comment-wrapped fragment, and the reason is also logged, so an
ignored entity is never silently dropped. -/
theorem c8_ignored_still_rendered (e : TagInfo) (indent : Nat)
    (h : e.should_be_ignored = true)
    (hr : ('\n' : Char) ∉ e.ignored_reason.toList)
    (hc : ('\n' : Char) ∉ (taggingContent e).toList) :
    (MetaInfo.tagging e indent).1
      = String.mk (List.replicate (indent * 4) ' ') ++ "// Ignored due to: " ++ e.ignored_reason
        ++ "\n" ++ String.mk (List.replicate (indent * 4) ' ')
        ++ "/*" ++ taggingContent e ++ "*/"
    ∧ (MetaInfo.tagging e indent).2 = ["Ignored due to: " ++ e.ignored_reason] := by
  unfold MetaInfo.tagging
  rw [h]
  simp only [if_true]
  constructor
  · have hsplit : ("// " ++ ("Ignored due to: " ++ e.ignored_reason) ++ "\n"
        ++ comment_content (taggingContent e)).toList
        = ("// Ignored due to: " ++ e.ignored_reason).toList ++ '\n'
            :: ("/*" ++ taggingContent e ++ "*/").toList := by
      simp [comment_content, String.toList, String.data_append]
    rw [hsplit, splitChar_single_sep]
    · simp only [List.map_cons, List.map_nil, joinChar]
      have hmk : ∀ (s : String), String.mk s.toList = s := fun _ => rfl
      rw [hmk, hmk]
      simp [String.ext_iff, String.data_append, String.toList]
    · intro hmem
      simp only [String.toList, String.data_append] at hmem
      rcases List.mem_append.mp hmem with hmem | hmem
      · revert hmem; decide
      · exact hr hmem
    · intro hmem
      simp only [comment_content, String.toList, String.data_append] at hmem
      rcases List.mem_append.mp hmem with hmem | hmem
      · rcases List.mem_append.mp hmem with hmem | hmem
        · revert hmem; decide
        · exact hc hmem
      · revert hmem; decide
  · trivial

theorem c8_ignored_still_rendered_witness :
    ((⟨"", "class_", "Point", "app::Point", ";", true, "void pointer"⟩ : TagInfo).should_be_ignored = true
      ∧ ('\n' : Char) ∉ ("void pointer" : String).toList
      ∧ ('\n' : Char) ∉ (taggingContent ⟨"", "class_", "Point", "app::Point", ";", true, "void pointer"⟩).toList)
    ∧ ((MetaInfo.tagging ⟨"", "class_", "Point", "app::Point", ";", true, "void pointer"⟩ 1).1
        = String.mk (List.replicate (1 * 4) ' ') ++ "// Ignored due to: " ++ "void pointer"
          ++ "\n" ++ String.mk (List.replicate (1 * 4) ' ')
          ++ "/*" ++ taggingContent ⟨"", "class_", "Point", "app::Point", ";", true, "void pointer"⟩ ++ "*/"
      ∧ (MetaInfo.tagging ⟨"", "class_", "Point", "app::Point", ";", true, "void pointer"⟩ 1).2
        = ["Ignored due to: " ++ "void pointer"]) :=
  ⟨⟨rfl, by decide, by decide⟩,
   c8_ignored_still_rendered ⟨"", "class_", "Point", "app::Point", ";", true, "void pointer"⟩ 1
     rfl (by decide) (by decide)⟩

end EmCppGen

namespace EmCppGen

/-! ## Tree builder: cursors, `ClassMeta.add_definations`,
`NamespaceMeta.scan_structure` -/

/-- Cursor kinds dispatched on by the tree builder. -/
inductive CKind where
  | NAMESPACE
  | CLASS_DECL
  | STRUCT_DECL
  | ENUM_DECL
  | FUNCTION_DECL
  | VAR_DECL
  | TYPEDEF_DECL
  | CXX_ACCESS_SPEC_DECL
  | LINKAGE_SPEC
  | CONSTRUCTOR
  | DESTRUCTOR
  | FIELD_DECL
  | CXX_METHOD
  | CXX_BASE_SPECIFIER
  | FUNCTION_TEMPLATE
  | OTHER
  deriving DecidableEq, Repr

/-- Access specifiers. -/
inductive Access where
  | PUBLIC
  | PROTECTED
  | PRIVATE
  | INVALID
  deriving DecidableEq, Repr

/-- Storage classes distinguished by the builder. -/
inductive Storage where
  | STATIC
  | NONE
  deriving DecidableEq, Repr

/-- A read-only clang cursor as consumed by the tree builder: kind, spelling,
type spelling, access specifier, storage class, const-qualification of its
type, argument count, originating file, definition flag and children. -/
inductive Cursor where
  | mk (kind : CKind) (spelling : String) (type_spelling : String)
       (access : Access) (storage : Storage) (is_const_qualified : Bool)
       (args_count : Nat) (file : String) (is_definition : Bool)
       (children : List Cursor)

def Cursor.kind : Cursor → CKind
  | .mk k _ _ _ _ _ _ _ _ _ => k

def Cursor.spelling : Cursor → String
  | .mk _ s _ _ _ _ _ _ _ _ => s

def Cursor.type_spelling : Cursor → String
  | .mk _ _ t _ _ _ _ _ _ _ => t

def Cursor.access : Cursor → Access
  | .mk _ _ _ a _ _ _ _ _ _ => a

def Cursor.storage : Cursor → Storage
  | .mk _ _ _ _ st _ _ _ _ _ => st

def Cursor.is_const_qualified : Cursor → Bool
  | .mk _ _ _ _ _ q _ _ _ _ => q

def Cursor.args_count : Cursor → Nat
  | .mk _ _ _ _ _ _ n _ _ _ => n

def Cursor.file : Cursor → String
  | .mk _ _ _ _ _ _ _ f _ _ => f

def Cursor.is_definition : Cursor → Bool
  | .mk _ _ _ _ _ _ _ _ d _ => d

def Cursor.children : Cursor → List Cursor
  | .mk _ _ _ _ _ _ _ _ _ cs => cs

/-- `get_full_name()` composition: an entity directly under the project keeps
its own name, every other entity is qualified by its parent's full name with
the default `::` separator. The project root's full name is modelled as `""`. -/
def qualifyName (parent_full name : String) : String :=
  if parent_full = "" then name else parent_full ++ "::" ++ name

/-- The member buckets of a `ClassMeta`/`StructMeta` entity built by
`add_definations`: ast name, derivation state, constructors, methods,
fields, static values, enums (with their values), nested structs, nested
classes and typedefs, in collection order. -/
inductive ClassData where
  | mk (ast_name : String) (is_derived : Bool) (base_class_name : String)
       (constructors : FunctionsCol) (methods : FunctionsCol)
       (fields : List String) (static_values : List String)
       (enums : List (String × List String))
       (structs : List ClassData) (classes : List ClassData)
       (type_defs : List String)

def ClassData.ast_name : ClassData → String
  | .mk n _ _ _ _ _ _ _ _ _ _ => n

def ClassData.is_derived : ClassData → Bool
  | .mk _ d _ _ _ _ _ _ _ _ _ => d

def ClassData.base_class_name : ClassData → String
  | .mk _ _ b _ _ _ _ _ _ _ _ => b

def ClassData.constructors : ClassData → FunctionsCol
  | .mk _ _ _ c _ _ _ _ _ _ _ => c

def ClassData.methods : ClassData → FunctionsCol
  | .mk _ _ _ _ m _ _ _ _ _ _ => m

def ClassData.fields : ClassData → List String
  | .mk _ _ _ _ _ f _ _ _ _ _ => f

def ClassData.static_values : ClassData → List String
  | .mk _ _ _ _ _ _ s _ _ _ _ => s

def ClassData.enums : ClassData → List (String × List String)
  | .mk _ _ _ _ _ _ _ e _ _ _ => e

def ClassData.structs : ClassData → List ClassData
  | .mk _ _ _ _ _ _ _ _ s _ _ => s

def ClassData.classes : ClassData → List ClassData
  | .mk _ _ _ _ _ _ _ _ _ c _ => c

def ClassData.type_defs : ClassData → List String
  | .mk _ _ _ _ _ _ _ _ _ _ t => t

/-- The empty member buckets of a freshly constructed class entity. -/
def emptyClass (name : String) : ClassData :=
  .mk name false "" [] [] [] [] [] [] [] []

/-- The `FunctionMetaRec` built for a callable cursor whose owner has full
name `self_full` (the cursor carries no disqualifying parameter types). -/
def cursorFunctionMeta (self_full : String) (c : Cursor) : FunctionMetaRec :=
  mkFunctionMeta c.spelling (qualifyName self_full c.spelling) c.args_count

mutual

/-- One dispatch step of `ClassMeta.add_definations`: only `PUBLIC` children
are collected, and each collected child lands in the bucket selected by its
cursor kind; unsupported kinds are logged and skipped. -/
def classAddOne (self_full : String) (acc : ClassData) (c : Cursor) : ClassData :=
  if c.access = Access.PUBLIC then
    match acc, c.kind with
    | .mk n _ _ co me fi sv en st cl td, .CXX_BASE_SPECIFIER =>
        .mk n true c.type_spelling co me fi sv en st cl td
    | .mk n d b co me fi sv en st cl td, .CONSTRUCTOR =>
        .mk n d b (Constructors.add_function co (cursorFunctionMeta self_full c)) me fi sv en st cl td
    | acc, .DESTRUCTOR => acc
    | .mk n d b co me fi sv en st cl td, .VAR_DECL =>
        if c.storage = Storage.STATIC then
          .mk n d b co me fi (sv ++ [c.spelling]) en st cl td
        else acc
    | .mk n d b co me fi sv en st cl td, .FIELD_DECL =>
        .mk n d b co me (fi ++ [c.spelling]) sv en st cl td
    | .mk n d b co me fi sv en st cl td, .CXX_METHOD =>
        .mk n d b co (Functions.add_function me (cursorFunctionMeta self_full c) false) fi sv en st cl td
    | .mk n d b co me fi sv en st cl td, .ENUM_DECL =>
        .mk n d b co me fi sv (en ++ [(c.spelling, c.children.map Cursor.spelling)]) st cl td
    | .mk n d b co me fi sv en st cl td, .STRUCT_DECL =>
        .mk n d b co me fi sv en (st ++ [buildClass (qualifyName self_full c.spelling) c]) cl td
    | .mk n d b co me fi sv en st cl td, .CLASS_DECL =>
        .mk n d b co me fi sv en st (cl ++ [buildClass (qualifyName self_full c.spelling) c]) td
    | .mk n d b co me fi sv en st cl td, .TYPEDEF_DECL =>
        .mk n d b co me fi sv en st cl (td ++ [c.spelling])
    | acc, .FUNCTION_TEMPLATE => acc
    | acc, .CXX_ACCESS_SPEC_DECL => acc
    | acc, _ => acc
  else acc
termination_by (sizeOf c, 2)

/-- `ClassMeta.add_definations`: fold the class cursor's children through the
public-only dispatch. -/
def classAddDefs (self_full : String) (acc : ClassData) (cs : List Cursor) : ClassData :=
  match cs with
  | [] => acc
  | c :: rest => classAddDefs self_full (classAddOne self_full acc c) rest
termination_by (sizeOf cs, 0)

/-- `ClassMeta.__init__`/`process`: build a class entity whose full name is
`self_full` from its cursor by collecting its public children. -/
def buildClass (self_full : String) (c : Cursor) : ClassData :=
  match c with
  | .mk _ s _ _ _ _ _ _ _ children => classAddDefs self_full (emptyClass s) children
termination_by (sizeOf c, 1)

end

end EmCppGen

namespace EmCppGen

/-- An entry of a namespace's `definations` list: the entity constructed by
`scan_structure` for a non-namespace child cursor. -/
inductive DefEntry where
  | constant (name : String)
  | func (f : FunctionMetaRec)
  | cls (isStruct : Bool) (data : ClassData)
  | enm (name : String) (values : List String)

/-- The state of a `NamespaceMeta`: ast name, `definations` in discovery
order, nested namespaces keyed by name in discovery order, and the
namespace's typedef list. -/
inductive NsData where
  | mk (ast_name : String) (definations : List DefEntry)
       (namespaces : List (String × NsData)) (type_defs : List String)

def NsData.ast_name : NsData → String
  | .mk n _ _ _ => n

def NsData.definations : NsData → List DefEntry
  | .mk _ d _ _ => d

def NsData.namespaces : NsData → List (String × NsData)
  | .mk _ _ nss _ => nss

def NsData.type_defs : NsData → List String
  | .mk _ _ _ td => td

/-- A freshly constructed namespace entity with empty collections. -/
def emptyNs (name : String) : NsData :=
  .mk name [] [] []

/-- `parent.namespaces.get(name)`: first entry with the given key. -/
def lookupNs : List (String × NsData) → String → Option NsData
  | [], _ => none
  | (k, v) :: rest, s => if k == s then some v else lookupNs rest s

/-- Replace the value stored under a key, keeping its position. -/
def setNsEntry (nss : List (String × NsData)) (k : String) (v : NsData) :
    List (String × NsData) :=
  nss.map (fun p => if p.1 == k then (p.1, v) else p)

def NsData.withDef : NsData → DefEntry → NsData
  | .mk n d nss td, e => .mk n (d ++ [e]) nss td

def NsData.withTypeDef : NsData → String → NsData
  | .mk n d nss td, s => .mk n d nss (td ++ [s])

def NsData.withNamespaces : NsData → List (String × NsData) → NsData
  | .mk n d _ td, nss => .mk n d nss td

theorem sizeOf_children_lt (c : Cursor) : sizeOf c.children < sizeOf c := by
  cases c with
  | mk k s t a st q n f d ch =>
    simp [Cursor.children]

mutual

/-- One step of `NamespaceMeta.scan_structure` for a single child cursor of
the namespace being scanned (whose full name is `self_full`): children that
are linkage specs, that come from another file, or that are not definitions
are filtered out; a namespace child merges into an existing same-named child
namespace or creates a new one; other recognized kinds append a defination or
a typedef; unrecognized kinds are logged and skipped. -/
def scanOne (location self_full : String) (ns : NsData) (c : Cursor) : NsData :=
  if c.kind = CKind.LINKAGE_SPEC ∨ ¬ c.file = location ∨ ¬ c.is_definition = true then ns
  else match c.kind with
    | .NAMESPACE =>
        match lookupNs ns.namespaces c.spelling with
        | none =>
            ns.withNamespaces (ns.namespaces
              ++ [(c.spelling, buildNamespace location (qualifyName self_full c.spelling) c)])
        | some old =>
            have : sizeOf c.children < sizeOf c := sizeOf_children_lt c
            ns.withNamespaces (setNsEntry ns.namespaces c.spelling
              (scanStructure location (qualifyName self_full c.spelling) old c.children))
    | .VAR_DECL =>
        if c.is_const_qualified then ns.withDef (.constant c.spelling) else ns
    | .FUNCTION_DECL => ns.withDef (.func (cursorFunctionMeta self_full c))
    | .CLASS_DECL => ns.withDef (.cls false (buildClass (qualifyName self_full c.spelling) c))
    | .STRUCT_DECL => ns.withDef (.cls true (buildClass (qualifyName self_full c.spelling) c))
    | .ENUM_DECL => ns.withDef (.enm c.spelling (c.children.map Cursor.spelling))
    | .TYPEDEF_DECL => ns.withTypeDef c.spelling
    | .CXX_ACCESS_SPEC_DECL => ns
    | _ => ns
termination_by (sizeOf c, 2)

/-- `NamespaceMeta.scan_structure`: fold the filtered children of a scanned
cursor into the namespace state. -/
def scanStructure (location self_full : String) (ns : NsData) (cs : List Cursor) : NsData :=
  match cs with
  | [] => ns
  | c :: rest => scanStructure location self_full (scanOne location self_full ns c) rest
termination_by (sizeOf cs, 0)

/-- `NamespaceMeta.__init__`/`process`: build a namespace entity of full name
`self_full` by scanning its own cursor's children. -/
def buildNamespace (location self_full : String) (c : Cursor) : NsData :=
  match c with
  | .mk _ s _ _ _ _ _ _ _ children => scanStructure location self_full (emptyNs s) children
termination_by (sizeOf c, 1)

end

/-- `ProjectMeta.process` (the scanning part): scan each input file's
translation-unit children into the shared project root, in file order. -/
def projectScan (files : List (String × List Cursor)) : NsData :=
  files.foldl (fun root f => scanStructure f.1 "" root f.2) (emptyNs "MainModule")

/-- The definations contributed by scanning child list `cs` (of a file whose
path is `location`) into a namespace with full name `self_full`. -/
def defsOfChildren (location self_full : String) (cs : List Cursor) : List DefEntry :=
  (scanStructure location self_full (emptyNs "") cs).definations

end EmCppGen

namespace EmCppGen

/-! ## Theorems for claims C6 and C7 -/

theorem scanOne_definations (l f : String) (ns : NsData) (c : Cursor) :
    (scanOne l f ns c).definations
      = ns.definations ++ (scanOne l f (emptyNs "") c).definations := by
  cases ns with
  | mk n d nss td =>
    cases c with
    | mk k s t a st q ac fl isd ch =>
      simp only [scanOne, Cursor.kind, Cursor.file, Cursor.is_definition, Cursor.spelling,
        Cursor.children, Cursor.is_const_qualified]
      by_cases hflt : k = CKind.LINKAGE_SPEC ∨ ¬ fl = l ∨ ¬ isd = true
      · rw [if_pos hflt, if_pos hflt]
        simp [NsData.definations, emptyNs]
      · rw [if_neg hflt, if_neg hflt]
        cases k <;>
          (rcases hlk : lookupNs nss s with _ | old) <;>
          (try cases q) <;>
          simp [hlk, NsData.definations, NsData.withDef, NsData.withTypeDef,
            NsData.withNamespaces, NsData.namespaces, lookupNs, emptyNs, setNsEntry]

theorem scanStructure_definations (l f : String) (cs : List Cursor) :
    ∀ (ns : NsData), (scanStructure l f ns cs).definations
      = ns.definations ++ defsOfChildren l f cs := by
  induction cs with
  | nil =>
    intro ns
    simp [scanStructure, defsOfChildren, emptyNs, NsData.definations]
  | cons c rest ih =>
    intro ns
    have hstep : defsOfChildren l f (c :: rest)
        = (scanOne l f (emptyNs "") c).definations ++ defsOfChildren l f rest := by
      unfold defsOfChildren
      simp only [scanStructure]
      rw [ih, scanOne_definations]
      simp [emptyNs, NsData.definations, defsOfChildren]
    simp only [scanStructure]
    rw [ih, scanOne_definations, hstep, List.append_assoc]

theorem defsOfChildren_cons (l f : String) (c : Cursor) (rest : List Cursor) :
    defsOfChildren l f (c :: rest)
      = (scanOne l f (emptyNs "") c).definations ++ defsOfChildren l f rest := by
  unfold defsOfChildren
  simp only [scanStructure]
  rw [scanStructure_definations, scanOne_definations]
  simp [emptyNs, NsData.definations, defsOfChildren]

/-- C6: two input files each declaring a namespace of the same name merge
into a single namespace entity at that scope whose member list is the
concatenation of the two files' contributions — file-processing order first,
then in-file declaration order (third conjunct: each file's contribution is
folded child by child, in order). -/
theorem c6_namespace_merge
    (name loc1 loc2 t1 t2 : String) (a1 a2 : Access) (s1 s2 : Storage)
    (q1 q2 : Bool) (n1 n2 : Nat) (c1 c2 : List Cursor) (c : Cursor) (rest : List Cursor) :
    ((scanStructure loc2 "" (scanStructure loc1 "" (emptyNs "MainModule")
        [Cursor.mk .NAMESPACE name t1 a1 s1 q1 n1 loc1 true c1])
        [Cursor.mk .NAMESPACE name t2 a2 s2 q2 n2 loc2 true c2]).namespaces).map Prod.fst
      = [name]
    ∧ (lookupNs (scanStructure loc2 "" (scanStructure loc1 "" (emptyNs "MainModule")
        [Cursor.mk .NAMESPACE name t1 a1 s1 q1 n1 loc1 true c1])
        [Cursor.mk .NAMESPACE name t2 a2 s2 q2 n2 loc2 true c2]).namespaces name).map
          NsData.definations
      = some (defsOfChildren loc1 (qualifyName "" name) c1
          ++ defsOfChildren loc2 (qualifyName "" name) c2)
    ∧ defsOfChildren loc1 (qualifyName "" name) (c :: rest)
      = (scanOne loc1 (qualifyName "" name) (emptyNs "") c).definations
          ++ defsOfChildren loc1 (qualifyName "" name) rest := by
  have h1 : scanStructure loc1 "" (emptyNs "MainModule")
      [Cursor.mk .NAMESPACE name t1 a1 s1 q1 n1 loc1 true c1]
      = NsData.mk "MainModule" [] [(name,
          buildNamespace loc1 (qualifyName "" name)
            (Cursor.mk .NAMESPACE name t1 a1 s1 q1 n1 loc1 true c1))] [] := by
    simp only [scanStructure, scanOne, Cursor.kind, Cursor.file, Cursor.is_definition,
      Cursor.spelling, Cursor.children]
    rw [if_neg (by simp)]
    simp [lookupNs, NsData.withNamespaces, NsData.namespaces, emptyNs]
  rw [h1]
  have h2 : scanStructure loc2 ""
      (NsData.mk "MainModule" [] [(name,
          buildNamespace loc1 (qualifyName "" name)
            (Cursor.mk .NAMESPACE name t1 a1 s1 q1 n1 loc1 true c1))] [])
      [Cursor.mk .NAMESPACE name t2 a2 s2 q2 n2 loc2 true c2]
      = NsData.mk "MainModule" [] [(name,
          scanStructure loc2 (qualifyName "" name)
            (buildNamespace loc1 (qualifyName "" name)
              (Cursor.mk .NAMESPACE name t1 a1 s1 q1 n1 loc1 true c1)) c2)] [] := by
    simp only [scanStructure, scanOne, Cursor.kind, Cursor.file, Cursor.is_definition,
      Cursor.spelling, Cursor.children]
    rw [if_neg (by simp)]
    simp [lookupNs, NsData.namespaces, NsData.withNamespaces, setNsEntry]
  rw [h2]
  refine ⟨by simp [NsData.namespaces], ?_, defsOfChildren_cons _ _ _ _⟩
  have h3 : lookupNs [(name,
      scanStructure loc2 (qualifyName "" name)
        (buildNamespace loc1 (qualifyName "" name)
          (Cursor.mk .NAMESPACE name t1 a1 s1 q1 n1 loc1 true c1)) c2)] name
      = some (scanStructure loc2 (qualifyName "" name)
          (buildNamespace loc1 (qualifyName "" name)
            (Cursor.mk .NAMESPACE name t1 a1 s1 q1 n1 loc1 true c1)) c2) := by
    simp [lookupNs]
  simp only [NsData.namespaces, h3, Option.map_some']
  rw [scanStructure_definations]
  simp only [buildNamespace]
  rw [scanStructure_definations]
  simp [emptyNs, NsData.definations]

end EmCppGen

namespace EmCppGen

theorem classAddOne_non_public (self_full : String) (acc : ClassData) (c : Cursor)
    (hc : ¬ c.access = Access.PUBLIC) :
    classAddOne self_full acc c = acc := by
  unfold classAddOne
  rw [if_neg hc]

/-- C7: class building collects only `PUBLIC` children — removing any
non-public child from a class cursor's child list leaves the built entity
unchanged, and a class with one public and one private method builds to an
entity whose only member anywhere is the public method. -/
theorem c7_public_only_visibility (self_full : String) (acc : ClassData)
    (pre post : List Cursor) (c : Cursor) (hc : ¬ c.access = Access.PUBLIC) :
    classAddDefs self_full acc (pre ++ c :: post) = classAddDefs self_full acc (pre ++ post)
    ∧ buildClass "app::W" (Cursor.mk .CLASS_DECL "W" "W" .PUBLIC .NONE false 0 "f.h" true
        [Cursor.mk .CXX_METHOD "pub" "double (double)" .PUBLIC .NONE false 1 "f.h" true [],
         Cursor.mk .CXX_METHOD "priv" "int (int)" .PRIVATE .NONE false 1 "f.h" true []])
      = ClassData.mk "W" false "" [] [("pub", [mkFunctionMeta "pub" "app::W::pub" 1])]
          [] [] [] [] [] [] := by
  constructor
  · induction pre generalizing acc with
    | nil =>
      simp only [List.nil_append, classAddDefs]
      rw [classAddOne_non_public self_full acc c hc]
    | cons p rest ih =>
      simp only [List.cons_append, classAddDefs]
      exact ih (classAddOne self_full acc p)
  · simp [buildClass, classAddDefs, classAddOne, emptyClass, cursorFunctionMeta, qualifyName,
      Functions.add_function, FunctionHomonymic.add_function, mkFunctionMeta, Cursor.access,
      Cursor.kind, Cursor.spelling, Cursor.args_count, Cursor.children, Cursor.storage]

theorem c7_public_only_visibility_witness :
    ¬ (Cursor.mk CKind.FIELD_DECL "secret" "int" Access.PRIVATE Storage.NONE false 0 "f.h" true
        []).access = Access.PUBLIC
    ∧ (classAddDefs "app::W" (emptyClass "W")
        ([] ++ (Cursor.mk CKind.FIELD_DECL "secret" "int" Access.PRIVATE Storage.NONE false 0
          "f.h" true []) :: [])
        = classAddDefs "app::W" (emptyClass "W") ([] ++ [])
      ∧ buildClass "app::W" (Cursor.mk .CLASS_DECL "W" "W" .PUBLIC .NONE false 0 "f.h" true
          [Cursor.mk .CXX_METHOD "pub" "double (double)" .PUBLIC .NONE false 1 "f.h" true [],
           Cursor.mk .CXX_METHOD "priv" "int (int)" .PRIVATE .NONE false 1 "f.h" true []])
        = ClassData.mk "W" false "" [] [("pub", [mkFunctionMeta "pub" "app::W::pub" 1])]
            [] [] [] [] [] []) :=
  ⟨by decide,
   c7_public_only_visibility "app::W" (emptyClass "W") [] []
     (Cursor.mk CKind.FIELD_DECL "secret" "int" Access.PRIVATE Storage.NONE false 0 "f.h" true [])
     (by decide)⟩

end EmCppGen

namespace EmCppGen

/-! ## The meta tree as an object heap: mangled names, full names and the
flatten pass -/

/-- Entity kinds of the meta tree, as far as naming is concerned. -/
inductive EKind where
  | project
  | nspace
  | cls
  | strct
  | enm
  | enumValue
  | func
  | ctor
  | field
  | staticValue
  | constant
  | typeAlias
  | stl (container_type : String)
  deriving DecidableEq, Repr

/-- The Python class name of an entity kind (its `__class__.__name__`). -/
def pyClassName : EKind → String
  | .project => "ProjectMeta"
  | .nspace => "NamespaceMeta"
  | .cls => "ClassMeta"
  | .strct => "StructMeta"
  | .enm => "EnumMeta"
  | .enumValue => "EnumValueMeta"
  | .func => "FunctionMeta"
  | .ctor => "ConstructorMeta"
  | .field => "ClassPropertyMeta"
  | .staticValue => "ClassStaticValueMeta"
  | .constant => "ConstantValueMeta"
  | .typeAlias => "TypeDefMeta"
  | .stl _ => "STLContainerMeta"

/-- `STLContainerMeta.get_mangling_prefix`: the fixed tag of each supported
container type, `UNKNOWN` for any other. -/
def stlManglingPfx (container_type : String) : String :=
  if container_type = "vector" then "STL__V_"
  else if container_type = "map" then "STL__M_"
  else if container_type = "set" then "STL__S_"
  else if container_type = "unordered_map" then "STL__UM_"
  else if container_type = "unordered_set" then "STL__US_"
  else "UNKNOWN"

/-- The default `get_mangling_prefix` of each entity kind: the hard-coded
fallbacks of the source (`N_` namespaces, `C_` classes, `S_` structs, `E_`
enums, the STL tags for container instances, empty for everything else). -/
def manglingPfx : EKind → String
  | .nspace => "N_"
  | .cls => "C_"
  | .strct => "S_"
  | .enm => "E_"
  | .stl ct => stlManglingPfx ct
  | _ => ""

/-- An entity of the meta tree. `parent` is the creation-time parent object,
which nothing ever reassigns; `definations`, `namespaces`, `classes`,
`structs`, `enums`, `fields`, `static_values` and `type_defs` are the
membership collections (id lists); the remaining fields are per-entity
attributes. -/
structure Entity where
  ast_name : String
  kind : EKind
  parent : Option Nat
  should_be_ignored : Bool := false
  ignored_reason : String := ""
  is_overloaded : Bool := false
  definations : List Nat := []
  namespaces : List (String × Nat) := []
  classes : List Nat := []
  structs : List Nat := []
  enums : List Nat := []
  fields : List Nat := []
  static_values : List Nat := []
  type_defs : List Nat := []
  deriving DecidableEq, Repr

/-- First entry stored under an id. -/
def lookupEnt : List (Nat × Entity) → Nat → Option Entity
  | [], _ => none
  | (k, e) :: rest, i => if k = i then some e else lookupEnt rest i

/-- The object heap: entities addressed by id. -/
structure Tree where
  entities : List (Nat × Entity)
  deriving DecidableEq, Repr

def Tree.find? (t : Tree) (i : Nat) : Option Entity :=
  lookupEnt t.entities i

/-- In-place mutation of the entity stored under an id. -/
def Tree.update (t : Tree) (i : Nat) (f : Entity → Entity) : Tree :=
  ⟨t.entities.map (fun p => if p.1 = i then (p.1, f p.2) else p)⟩

/-- `MetaInfo.get_mangled_name` with the default mangling template, `__`
separator and default kind prefixes: walk the creation-time parent chain;
the project root (`ProjectMeta.get_mangled_name`) returns the empty string,
which suppresses the separator for its direct children. `fuel` bounds the
parent-chain walk. -/
def mangledNameAux (t : Tree) : Nat → Nat → String
  | 0, _ => ""
  | fuel + 1, i =>
    match t.find? i with
    | none => ""
    | some e =>
      if e.kind = EKind.project then ""
      else
        let parent_mangled := match e.parent with
          | none => ""
          | some p => mangledNameAux t fuel p
        parent_mangled ++ (if parent_mangled = "" then "" else "__")
          ++ manglingPfx e.kind ++ e.ast_name

def Tree.mangledName (t : Tree) (i : Nat) : String :=
  mangledNameAux t t.entities.length i

/-- `MetaInfo.get_full_name` with the default template and `::` separator:
an entity whose parent is the project root returns its own ast name. -/
def fullNameAux (t : Tree) : Nat → Nat → String
  | 0, _ => ""
  | fuel + 1, i =>
    match t.find? i with
    | none => ""
    | some e =>
      match e.parent with
      | none => e.ast_name
      | some p =>
        match t.find? p with
        | none => e.ast_name
        | some pe =>
          if pe.kind = EKind.project then e.ast_name
          else fullNameAux t fuel p ++ "::" ++ e.ast_name

def Tree.fullName (t : Tree) (i : Nat) : String :=
  fullNameAux t t.entities.length i

/-- `isinstance(x, ClassMeta)`: class and struct entities. -/
def isClassLike (t : Tree) (i : Nat) : Bool :=
  match t.find? i with
  | some e =>
    match e.kind with
    | .cls => true
    | .strct => true
    | _ => false
  | none => false

/-- `list.remove`: drop the first occurrence of a value. -/
def removeFirst : List Nat → Nat → List Nat
  | [], _ => []
  | x :: rest, y => if x = y then rest else x :: removeFirst rest y

/-- `ClassMeta.unnest_to_namespace`: append the class to the namespace's
`definations`, move the class's enums there and empty its `enums`, then
recursively unnest nested classes and structs, emptying `classes` and
`structs`. Only membership collections are written. `fuel` bounds the
nesting depth. -/
def unnestToNamespace : Nat → Tree → Nat → Nat → Tree
  | 0, t, _, _ => t
  | fuel + 1, t, cid, nsid =>
    let t1 := t.update nsid (fun e => { e with definations := e.definations ++ [cid] })
    let enumsList := ((t1.find? cid).map Entity.enums).getD []
    let t2 := t1.update nsid (fun e => { e with definations := e.definations ++ enumsList })
    let t3 := t2.update cid (fun e => { e with enums := [] })
    let classesList := ((t3.find? cid).map Entity.classes).getD []
    let t4 := classesList.foldl (fun acc x => unnestToNamespace fuel acc x nsid) t3
    let t5 := t4.update cid (fun e => { e with classes := [] })
    let structsList := ((t5.find? cid).map Entity.structs).getD []
    let t6 := structsList.foldl (fun acc x => unnestToNamespace fuel acc x nsid) t5
    t6.update cid (fun e => { e with structs := [] })

/-- `NamespaceMeta.flatten`: pick the class-like members out of
`definations`, remove them, unnest each into this namespace, then flatten
the nested namespaces. -/
def nsFlatten : Nat → Tree → Nat → Tree
  | 0, t, _ => t
  | fuel + 1, t, nsid =>
    match t.find? nsid with
    | none => t
    | some ns =>
      let classes := ns.definations.filter (fun i => isClassLike t i)
      let t1 := t.update nsid (fun e =>
        { e with definations := classes.foldl removeFirst e.definations })
      let t2 := classes.foldl (fun acc c => unnestToNamespace fuel acc c nsid) t1
      let nss := (((t2.find? nsid).map Entity.namespaces).getD []).map Prod.snd
      nss.foldl (fun acc n => nsFlatten fuel acc n) t2

/-- `ProjectMeta.flatten`: flatten every top-level namespace; the project's
own `definations` are left alone. -/
def projectFlatten (fuel : Nat) (t : Tree) (rootId : Nat) : Tree :=
  let nss := (((t.find? rootId).map Entity.namespaces).getD []).map Prod.snd
  nss.foldl (fun acc n => nsFlatten fuel acc n) t

/-- The entity fields the flatten pass never writes: everything except the
`definations`, `classes`, `structs` and `enums` collections. -/
def stableView (e : Entity) : String × EKind × Option Nat × Bool × String × Bool
    × List (String × Nat) × List Nat × List Nat × List Nat :=
  (e.ast_name, e.kind, e.parent, e.should_be_ignored, e.ignored_reason, e.is_overloaded,
   e.namespaces, e.fields, e.static_values, e.type_defs)

/-- `t'` has the same ids and the same stable fields as `t`. -/
def Preserves (t t' : Tree) : Prop :=
  t'.entities.length = t.entities.length ∧
  ∀ i, (t'.find? i).map stableView = (t.find? i).map stableView

end EmCppGen

namespace EmCppGen

/-! ## Theorems for claims C1 and C10 -/

theorem preserves_refl (t : Tree) : Preserves t t :=
  ⟨rfl, fun _ => rfl⟩

theorem preserves_trans {t1 t2 t3 : Tree} (h12 : Preserves t1 t2) (h23 : Preserves t2 t3) :
    Preserves t1 t3 :=
  ⟨h23.1.trans h12.1, fun i => (h23.2 i).trans (h12.2 i)⟩

theorem lookupEnt_cons (k : Nat) (e : Entity) (rest : List (Nat × Entity)) (i : Nat) :
    lookupEnt ((k, e) :: rest) i = if k = i then some e else lookupEnt rest i := rfl

theorem lookupEnt_update (l : List (Nat × Entity)) (j : Nat) (f : Entity → Entity) (i : Nat) :
    lookupEnt (l.map (fun p => if p.1 = j then (p.1, f p.2) else p)) i
      = if j = i then (lookupEnt l i).map f else lookupEnt l i := by
  induction l with
  | nil => simp [lookupEnt]
  | cons p rest ih =>
    obtain ⟨k, e⟩ := p
    rw [List.map_cons]
    rw [show (if (k, e).1 = j then ((k, e).1, f (k, e).2) else (k, e))
        = if k = j then (k, f e) else (k, e) from rfl]
    by_cases hkj : k = j
    · rw [if_pos hkj]
      subst hkj
      simp only [lookupEnt_cons, ih]
      by_cases hki : k = i
      · simp [hki]
      · simp [hki]
    · rw [if_neg hkj]
      simp only [lookupEnt_cons, ih]
      by_cases hki : k = i
      · have hji : ¬ j = i := fun h => hkj (hki.trans h.symm)
        simp [hki, hji]
      · simp [hki]

theorem find?_update (t : Tree) (j : Nat) (f : Entity → Entity) (i : Nat) :
    (t.update j f).find? i = if j = i then (t.find? i).map f else t.find? i := by
  unfold Tree.find? Tree.update
  exact lookupEnt_update t.entities j f i

theorem update_preserves (t : Tree) (j : Nat) (f : Entity → Entity)
    (hf : ∀ e, stableView (f e) = stableView e) : Preserves t (t.update j f) := by
  refine ⟨by simp [Tree.update], fun i => ?_⟩
  rw [find?_update]
  split
  · cases t.find? i <;> simp [hf]
  · rfl

theorem foldl_preserves {α : Type} (g : Tree → α → Tree) (l : List α)
    (hg : ∀ acc x, Preserves acc (g acc x)) :
    ∀ t, Preserves t (l.foldl g t) := by
  induction l with
  | nil => intro t; exact preserves_refl t
  | cons x rest ih =>
    intro t
    exact preserves_trans (hg t x) (ih (g t x))

theorem preserves_update_right {t t' : Tree} {j : Nat} {f : Entity → Entity}
    (hf : ∀ e, stableView (f e) = stableView e) (h : Preserves t t') :
    Preserves t (t'.update j f) :=
  preserves_trans h (update_preserves t' j f hf)

theorem preserves_foldl_right {α : Type} {t t' : Tree} {g : Tree → α → Tree} {l : List α}
    (hg : ∀ acc x, Preserves acc (g acc x)) (h : Preserves t t') :
    Preserves t (l.foldl g t') :=
  preserves_trans h (foldl_preserves g l hg t')

theorem unnest_preserves : ∀ (fuel : Nat) (cid nsid : Nat) (t : Tree),
    Preserves t (unnestToNamespace fuel t cid nsid) := by
  intro fuel
  induction fuel with
  | zero => intro cid nsid t; exact preserves_refl t
  | succ fuel ih =>
    intro cid nsid t
    unfold unnestToNamespace
    refine preserves_update_right ?_ (preserves_foldl_right ?_ (preserves_update_right ?_
      (preserves_foldl_right ?_ (preserves_update_right ?_ (preserves_update_right ?_
        (update_preserves _ _ _ ?_))))))
    · exact fun e => rfl
    · exact fun acc x => ih x nsid acc
    · exact fun e => rfl
    · exact fun acc x => ih x nsid acc
    · exact fun e => rfl
    · exact fun e => rfl
    · exact fun e => rfl

theorem nsFlatten_preserves : ∀ (fuel : Nat) (nsid : Nat) (t : Tree),
    Preserves t (nsFlatten fuel t nsid) := by
  intro fuel
  induction fuel with
  | zero => intro nsid t; exact preserves_refl t
  | succ fuel ih =>
    intro nsid t
    unfold nsFlatten
    cases hfind : t.find? nsid with
    | none => exact preserves_refl t
    | some ns =>
      refine preserves_foldl_right ?_ (preserves_foldl_right ?_
        (update_preserves _ _ _ ?_))
      · exact fun acc x => ih x acc
      · exact fun acc x => unnest_preserves fuel x nsid acc
      · exact fun e => rfl

theorem projectFlatten_preserves (fuel : Nat) (t : Tree) (rootId : Nat) :
    Preserves t (projectFlatten fuel t rootId) := by
  unfold projectFlatten
  exact foldl_preserves _ _ (fun acc x => nsFlatten_preserves fuel x acc) t

theorem stableView_fields {e e' : Entity} (h : stableView e' = stableView e) :
    e'.ast_name = e.ast_name ∧ e'.kind = e.kind ∧ e'.parent = e.parent := by
  unfold stableView at h
  simp only [Prod.mk.injEq] at h
  exact ⟨h.1, h.2.1, h.2.2.1⟩

theorem mangled_eq_of_preserves {t t' : Tree} (h : Preserves t t') :
    ∀ (fuel i : Nat), mangledNameAux t' fuel i = mangledNameAux t fuel i := by
  intro fuel
  induction fuel with
  | zero => intro i; rfl
  | succ fuel ih =>
    intro i
    have hsv := h.2 i
    unfold mangledNameAux
    cases ht' : t'.find? i with
    | none =>
      cases ht : t.find? i with
      | none => rfl
      | some e => rw [ht, ht'] at hsv; simp at hsv
    | some e' =>
      cases ht : t.find? i with
      | none => rw [ht, ht'] at hsv; simp at hsv
      | some e =>
        rw [ht, ht'] at hsv
        simp only [Option.map_some', Option.some.injEq] at hsv
        obtain ⟨h1, h2, h3⟩ := stableView_fields hsv
        simp only [h1, h2, h3]
        cases hp : e.parent <;> simp [ih]

theorem full_eq_of_preserves {t t' : Tree} (h : Preserves t t') :
    ∀ (fuel i : Nat), fullNameAux t' fuel i = fullNameAux t fuel i := by
  intro fuel
  induction fuel with
  | zero => intro i; rfl
  | succ fuel ih =>
    intro i
    have hsv := h.2 i
    unfold fullNameAux
    cases ht' : t'.find? i with
    | none =>
      cases ht : t.find? i with
      | none => rfl
      | some e => rw [ht, ht'] at hsv; simp at hsv
    | some e' =>
      cases ht : t.find? i with
      | none => rw [ht, ht'] at hsv; simp at hsv
      | some e =>
        rw [ht, ht'] at hsv
        simp only [Option.map_some', Option.some.injEq] at hsv
        obtain ⟨h1, h2, h3⟩ := stableView_fields hsv
        simp only [h1, h3]
        cases hp : e.parent with
        | none => rfl
        | some p =>
          dsimp only
          have hsvp := h.2 p
          cases htp' : t'.find? p with
          | none =>
            cases htp : t.find? p with
            | none => rfl
            | some pe => rw [htp, htp'] at hsvp; simp at hsvp
          | some pe' =>
            cases htp : t.find? p with
            | none => rw [htp, htp'] at hsvp; simp at hsvp
            | some pe =>
              rw [htp, htp'] at hsvp
              simp only [Option.map_some', Option.some.injEq] at hsvp
              obtain ⟨hp1, hp2, hp3⟩ := stableView_fields hsvp
              simp only [hp2]
              by_cases hpk : pe.kind = EKind.project
              · simp [hpk]
              · simp [hpk, ih p]

/-- C1: for every tree, every entity and every nesting-depth fuel, the
mangled name computed by `get_mangled_name` is identical before and after
the flatten pass — flattening rewrites only membership collections and never
the parent chain, kinds or names the mangling walk reads, for all tree
shapes including multiply-nested classes, structs and enums. -/
theorem c1_mangled_name_stable_under_flatten (t : Tree) (rootId i fuel : Nat) :
    (projectFlatten fuel t rootId).mangledName i = t.mangledName i := by
  have h := projectFlatten_preserves fuel t rootId
  unfold Tree.mangledName
  rw [h.1]
  exact mangled_eq_of_preserves h _ i

/-- C10: the flatten pass mutates only membership collections — every other
field of every entity (ast name, kind, the never-reassigned parent pointer,
ignore flags and reasons, overload flags, and the collections other than the
lifted ones) is unchanged, and consequently every entity's fully qualified
name is identical before and after flattening. -/
theorem c10_flatten_frame (t : Tree) (rootId i fuel : Nat) :
    ((projectFlatten fuel t rootId).find? i).map stableView = (t.find? i).map stableView
    ∧ (projectFlatten fuel t rootId).fullName i = t.fullName i := by
  have h := projectFlatten_preserves fuel t rootId
  refine ⟨h.2 i, ?_⟩
  unfold Tree.fullName
  rw [h.1]
  exact full_eq_of_preserves h _ i

end EmCppGen

namespace EmCppGen

/-! ## The mangled-name parser of the helper layer, and ancestor chains -/

/-- Python `str.split('__')`: left-to-right, non-overlapping split on the
two-underscore separator, with an accumulator holding the reversed segment
being scanned. -/
def splitUU : List Char → List Char → List (List Char)
  | [], acc => [acc.reverse]
  | c :: rest, acc =>
    if c = '_' then
      match rest with
      | [] => [(c :: acc).reverse]
      | c2 :: rest2 =>
        if c2 = '_' then acc.reverse :: splitUU rest2 []
        else splitUU (c2 :: rest2) (c :: acc)
    else splitUU rest (c :: acc)

/-- Classify one `__`-separated part of a mangled name by its prefix, with
the checks in the source's `elif` order (`N_`, `C_`, `S_`, `E_`, `STL__`,
plain). -/
def classifySeg (part : List Char) : String × String :=
  match part with
  | 'N' :: '_' :: rest => ("namespace", String.mk rest)
  | 'C' :: '_' :: rest => ("class", String.mk rest)
  | 'S' :: '_' :: rest => ("struct", String.mk rest)
  | 'E' :: '_' :: rest => ("enum", String.mk rest)
  | part =>
    if listStartsWith part ['S', 'T', 'L', '_', '_'] then ("stl", String.mk part)
    else ("plain", String.mk part)

/-- `parse_mangled_name` from `style_sheets/shared_helpers.py`: split the
mangled name on `__` and classify every part. -/
def parse_mangled_name (mangled_name : String) : List (String × String) :=
  (splitUU mangled_name.toList []).map classifySeg

/-- The (kind, ast name) chain of ancestors from the root (exclusive) down
to an entity, read off the creation-time parent pointers, bounded by
`fuel`. -/
def chainAux (t : Tree) : Nat → Nat → List (EKind × String)
  | 0, _ => []
  | fuel + 1, i =>
    match t.find? i with
    | none => []
    | some e =>
      if e.kind = EKind.project then []
      else
        (match e.parent with
         | none => []
         | some p => chainAux t fuel p) ++ [(e.kind, e.ast_name)]

def Tree.chain (t : Tree) (i : Nat) : List (EKind × String) :=
  chainAux t t.entities.length i

/-- One application of the default mangling template. -/
def mangleStep (pm : String) (kn : EKind × String) : String :=
  pm ++ (if pm = "" then "" else "__") ++ manglingPfx kn.1 ++ kn.2

/-- The mangled name determined by a chain alone: the fold of the default
mangling template over the chain elements, starting from the project's
empty mangled name. -/
def chainMangled (cs : List (EKind × String)) : String :=
  cs.foldl mangleStep ""

/-- The parse tag corresponding to each entity kind. -/
def kindTag : EKind → String
  | .nspace => "namespace"
  | .cls => "class"
  | .strct => "struct"
  | .enm => "enum"
  | .stl _ => "stl"
  | _ => "plain"

/-- The mangled segment contributed by one chain element. -/
def segChars (kn : EKind × String) : List Char :=
  (manglingPfx kn.1 ++ kn.2).toList

/-- Does the character list contain two adjacent underscores? -/
def hasUU : List Char → Bool
  | a :: b :: rest => (a == '_' && b == '_') || hasUU (b :: rest)
  | _ => false

/-- A chain element is clean: its segment is nonempty, has no inner `__`,
does not end in `_`, and classifies back to exactly its kind tag and raw
name. -/
def CleanSeg (kn : EKind × String) : Bool :=
  !(segChars kn).isEmpty && !hasUU (segChars kn)
    && !(decide ((segChars kn).getLast? = some '_'))
    && decide (classifySeg (segChars kn) = (kindTag kn.1, kn.2))

end EmCppGen

namespace EmCppGen

/-! ## Round-trip lemmas for claim C2 -/

theorem hasUU_tail {a : Char} {l : List Char} (h : hasUU (a :: l) = false) :
    hasUU l = false := by
  cases l with
  | nil => rfl
  | cons b rest =>
    have hred : hasUU (a :: b :: rest) = ((a == '_' && b == '_') || hasUU (b :: rest)) := rfl
    rw [hred] at h
    exact (Bool.or_eq_false_iff.mp h).2

theorem splitUU_chunk (s : List Char) : ∀ (acc t : List Char),
    hasUU s = false →
    (t.head? = some '_' → s.getLast? ≠ some '_') →
    splitUU (s ++ t) acc = splitUU t (s.reverse ++ acc) := by
  induction s with
  | nil =>
    intro acc t _ _
    simp
  | cons c s' ih =>
    intro acc t hUU hguard
    by_cases hc : c = '_'
    · subst hc
      cases s' with
      | nil =>
        cases t with
        | nil => simp [splitUU]
        | cons c2 t2 =>
          have hc2 : ¬ c2 = '_' := by
            intro h
            exact hguard (by simp [h]) (by simp)
          show splitUU ('_' :: c2 :: t2) acc = splitUU (c2 :: t2) (['_'].reverse ++ acc)
          simp [splitUU, hc2]
      | cons c2 s'' =>
        have hc2 : ¬ c2 = '_' := by
          intro h
          subst h
          have hred : hasUU ('_' :: '_' :: s'') = (('_' == '_' && '_' == '_') || hasUU ('_' :: s'')) := rfl
          rw [hred] at hUU
          simp at hUU
        have hstep : splitUU (('_' :: c2 :: s'') ++ t) acc
            = splitUU ((c2 :: s'') ++ t) ('_' :: acc) := by
          simp [splitUU, hc2]
        rw [hstep, ih ('_' :: acc) t (hasUU_tail hUU) ?hg]
        case hg =>
          intro hh
          rw [← List.getLast?_cons_cons]
          exact hguard hh
        simp
    · have hstep : splitUU ((c :: s') ++ t) acc = splitUU (s' ++ t) (c :: acc) := by
        rw [splitUU.eq_def]
        simp [hc]
      rw [hstep, ih (c :: acc) t (hasUU_tail hUU) ?hg2]
      case hg2 =>
        intro hh
        cases s' with
        | nil => simp
        | cons x xs =>
          rw [← List.getLast?_cons_cons]
          exact hguard hh
      simp

theorem splitUU_sep (t acc : List Char) :
    splitUU ('_' :: '_' :: t) acc = acc.reverse :: splitUU t [] := by
  simp [splitUU]

/-- Join segments with the `__` separator (inverse direction of
`splitUU`). -/
def joinUU : List (List Char) → List Char
  | [] => []
  | [s] => s
  | s :: rest => s ++ '_' :: '_' :: joinUU rest

def joinTail (l : List (List Char)) : List Char :=
  (l.map (fun s => '_' :: '_' :: s)).flatten

theorem joinUU_cons (l : List (List Char)) : ∀ (s : List Char),
    joinUU (s :: l) = s ++ joinTail l := by
  induction l with
  | nil => intro s; simp [joinUU, joinTail]
  | cons x l' ih =>
    intro s
    have hred : joinUU (s :: x :: l') = s ++ '_' :: '_' :: joinUU (x :: l') := rfl
    rw [hred, ih x]
    simp [joinTail]

theorem splitUU_joinUU : ∀ (segs : List (List Char)), segs ≠ [] →
    (∀ s ∈ segs, hasUU s = false ∧ s.getLast? ≠ some '_') →
    splitUU (joinUU segs) [] = segs := by
  intro segs
  induction segs with
  | nil => intro h _; exact absurd rfl h
  | cons s rest ih =>
    intro _ hclean
    obtain ⟨hUU, hlast⟩ := hclean s (by simp)
    cases rest with
    | nil =>
      have h1 : splitUU (s ++ []) [] = splitUU [] (s.reverse ++ []) :=
        splitUU_chunk s [] [] hUU (by simp)
      simpa [joinUU, splitUU] using h1
    | cons s2 rest2 =>
      have hjoin : joinUU (s :: s2 :: rest2) = s ++ '_' :: '_' :: joinUU (s2 :: rest2) := rfl
      rw [hjoin,
        splitUU_chunk s [] ('_' :: '_' :: joinUU (s2 :: rest2)) hUU (fun _ => hlast),
        splitUU_sep,
        ih (by simp) (fun x hx => hclean x (by simp [hx]))]
      simp

theorem toList_uu_append (pm x : String) :
    (pm ++ "__" ++ x).toList = pm.toList ++ '_' :: '_' :: x.toList := by
  show (pm ++ "__" ++ x).data = pm.data ++ '_' :: '_' :: x.data
  rw [String.data_append, String.data_append,
    show ("__" : String).data = ['_', '_'] from rfl]
  simp

theorem chainMangled_fold_aux (cs : List (EKind × String)) : ∀ (pm : String), ¬ pm = "" →
    (cs.foldl mangleStep pm).toList = pm.toList ++ joinTail (cs.map segChars) := by
  induction cs with
  | nil => intro pm _; simp [joinTail]
  | cons kn rest ih =>
    intro pm hpm
    rw [List.foldl_cons]
    have hstep : mangleStep pm kn = pm ++ "__" ++ (manglingPfx kn.1 ++ kn.2) := by
      unfold mangleStep
      rw [if_neg hpm]
      simp [String.ext_iff, String.data_append]
    have htl : (mangleStep pm kn).toList = pm.toList ++ '_' :: '_' :: segChars kn := by
      rw [hstep, toList_uu_append]
      rfl
    have hne : ¬ mangleStep pm kn = "" := by
      intro h
      rw [h] at htl
      have : ([] : List Char) = pm.toList ++ '_' :: '_' :: segChars kn := htl
      exact absurd this.symm (by simp)
    rw [ih _ hne, htl]
    simp [joinTail]

theorem chainMangled_toList (kn : EKind × String) (rest : List (EKind × String))
    (hne : segChars kn ≠ []) :
    (chainMangled (kn :: rest)).toList = joinUU ((kn :: rest).map segChars) := by
  unfold chainMangled
  rw [List.foldl_cons]
  have hfirst : mangleStep "" kn = manglingPfx kn.1 ++ kn.2 := by
    unfold mangleStep
    simp [String.ext_iff, String.data_append]
  have hpm : ¬ mangleStep "" kn = "" := by
    rw [hfirst]
    intro h
    apply hne
    unfold segChars
    rw [h]
    rfl
  rw [chainMangled_fold_aux rest _ hpm, List.map_cons, joinUU_cons, hfirst]
  rfl

theorem mangledNameAux_eq_chainMangled (t : Tree) : ∀ (fuel i : Nat),
    mangledNameAux t fuel i = chainMangled (chainAux t fuel i) := by
  intro fuel
  induction fuel with
  | zero => intro i; rfl
  | succ fuel ih =>
    intro i
    unfold mangledNameAux chainAux
    cases ht : t.find? i with
    | none => rfl
    | some e =>
      dsimp only
      by_cases hk : e.kind = EKind.project
      · rw [if_pos hk, if_pos hk]
        rfl
      · rw [if_neg hk, if_neg hk]
        cases hp : e.parent with
        | none => simp [chainMangled, mangleStep]
        | some p =>
          dsimp only
          rw [ih p]
          unfold chainMangled
          rw [List.foldl_append]
          rfl

end EmCppGen

namespace EmCppGen

theorem cleanSeg_spec {kn : EKind × String} (h : CleanSeg kn = true) :
    segChars kn ≠ [] ∧ hasUU (segChars kn) = false ∧ (segChars kn).getLast? ≠ some '_'
      ∧ classifySeg (segChars kn) = (kindTag kn.1, kn.2) := by
  simp only [CleanSeg, Bool.and_eq_true, Bool.not_eq_true', decide_eq_true_eq,
    decide_eq_false_iff_not] at h
  refine ⟨?_, h.1.1.2, h.1.2, h.2⟩
  intro hnil
  have hh := h.1.1.1
  rw [hnil] at hh
  simp at hh

/-- C2 (amended): for every entity whose ancestor chain is nonempty and
consists of clean segments — each kind prefix plus ast name nonempty, free
of inner `__`, not ending in `_`, and classifying back to its kind tag and
raw name (which excludes container instances, whose `STL__…` prefixes embed
the separator) — `parse_mangled_name` applied to the entity's mangled name
yields exactly the (kindTag, rawName) chain of ancestors from the root down
to the entity. -/
theorem c2_parse_roundtrip (t : Tree) (i : Nat)
    (hne : t.chain i ≠ [])
    (hclean : ∀ kn ∈ t.chain i, CleanSeg kn = true) :
    parse_mangled_name (t.mangledName i)
      = (t.chain i).map (fun kn => (kindTag kn.1, kn.2)) := by
  unfold Tree.mangledName Tree.chain at *
  rw [mangledNameAux_eq_chainMangled]
  unfold parse_mangled_name
  cases hcs : chainAux t t.entities.length i with
  | nil => exact absurd hcs hne
  | cons kn rest =>
    rw [hcs] at hclean
    have hkn := cleanSeg_spec (hclean kn (by simp))
    rw [chainMangled_toList kn rest hkn.1]
    rw [splitUU_joinUU ((kn :: rest).map segChars) (by simp) ?hcl]
    case hcl =>
      intro s hs
      simp only [List.mem_map] at hs
      obtain ⟨kn', hkn', rfl⟩ := hs
      have hspec := cleanSeg_spec (hclean kn' hkn')
      exact ⟨hspec.2.1, hspec.2.2.1⟩
    rw [List.map_map]
    apply List.map_congr_left
    intro kn' hkn'
    exact (cleanSeg_spec (hclean kn' hkn')).2.2.2

/-- The heap of the C2 counterexample: the project root and one
`std::vector<int>` container instance whose combined-argument ast name is
`Int`. -/
def exTreeC2 : Tree :=
  ⟨[(0, { ast_name := "MainModule", kind := .project, parent := none }),
    (1, { ast_name := "Int", kind := .stl "vector", parent := some 0 })]⟩

/-- C2 is false as stated: a container instance's mangled name
(`STL__V_Int`) embeds the separator inside its own prefix, so the parse
splits it into two `plain` segments — the parse result cannot correspond
one-to-one, in order, to the single-element ancestor chain of the entity. -/
theorem c2_counterexample :
    exTreeC2.chain 1 = [(EKind.stl "vector", "Int")]
    ∧ exTreeC2.mangledName 1 = "STL__V_Int"
    ∧ parse_mangled_name (exTreeC2.mangledName 1) = [("plain", "STL"), ("plain", "V_Int")]
    ∧ (parse_mangled_name (exTreeC2.mangledName 1)).length ≠ (exTreeC2.chain 1).length := by
  refine ⟨?_, ?_, ?_, ?_⟩ <;> decide

/-- The witness heap: `app::Point::Color`, a namespace, a class and a
nested enum. -/
def exTreeC2w : Tree :=
  ⟨[(0, { ast_name := "MainModule", kind := .project, parent := none }),
    (1, { ast_name := "app", kind := .nspace, parent := some 0 }),
    (2, { ast_name := "Point", kind := .cls, parent := some 1 }),
    (3, { ast_name := "Color", kind := .enm, parent := some 2 })]⟩

theorem c2_parse_roundtrip_witness :
    (exTreeC2w.chain 3 ≠ [] ∧ ∀ kn ∈ exTreeC2w.chain 3, CleanSeg kn = true)
    ∧ parse_mangled_name (exTreeC2w.mangledName 3)
      = (exTreeC2w.chain 3).map (fun kn => (kindTag kn.1, kn.2)) :=
  ⟨⟨by decide, by decide⟩, c2_parse_roundtrip exTreeC2w 3 (by decide) (by decide)⟩

end EmCppGen

namespace EmCppGen

/-! ## `build_hierarchical_structure_base` from the helper layer -/

/-- A node of the structure built by `build_hierarchical_structure_base`:
its `mangled_name` (`None` for intermediate nodes created while descending),
its `type` string, and its named children in insertion order. -/
inductive HEntry where
  | mk (mangled_name : Option String) (typeName : String)
       (children : List (String × HEntry))

def HEntry.mangled_name : HEntry → Option String
  | .mk m _ _ => m

def HEntry.typeName : HEntry → String
  | .mk _ ty _ => ty

def HEntry.children : HEntry → List (String × HEntry)
  | .mk _ _ ch => ch

abbrev HStructure := List (String × HEntry)

/-- Python dict lookup on the structure level. -/
def hLookup : HStructure → String → Option HEntry
  | [], _ => none
  | (k, v) :: rest, s => if k = s then some v else hLookup rest s

/-- Python dict assignment: overwrite in place or append. -/
def hSet (st : HStructure) (k : String) (v : HEntry) : HStructure :=
  if st.any (fun p => p.1 == k) then
    st.map (fun p => if p.1 == k then (p.1, v) else p)
  else st ++ [(k, v)]

/-- The descent of `build_hierarchical_structure_base`: walk the
intermediate path segments, creating `{children: {}, type: prefix_type,
mangled_name: None}` nodes for missing names, then store the final entry
under `final_name` (overwriting any previous entry there). -/
def insertAtPath : List (String × String) → String → HEntry → HStructure → HStructure
  | [], final_name, entry, st => hSet st final_name entry
  | (ptype, name) :: rest, final_name, entry, st =>
    match hLookup st name with
    | some node =>
        hSet st name (HEntry.mk node.mangled_name node.typeName
          (insertAtPath rest final_name entry node.children))
    | none =>
        hSet st name (HEntry.mk none ptype (insertAtPath rest final_name entry []))

/-- One `defination` step of `build_hierarchical_structure_base` for a
namespace with ast name `nsName`. -/
def buildStep (t : Tree) (nsName : String) (exclude_constants : Bool)
    (st : HStructure) (d : Nat) : HStructure :=
  match t.find? d with
  | none => st
  | some de =>
    if exclude_constants && (pyClassName de.kind == "ConstantValueMeta") then st
    else
      let mangled_name := t.mangledName d
      let hierarchy := parse_mangled_name mangled_name
      if decide (1 < hierarchy.length)
          && !((hierarchy.headD ("", "")).2 == nsName) then st
      else if hierarchy.length ≤ 1 then
        hSet st de.ast_name (HEntry.mk (some mangled_name) (pyClassName de.kind) [])
      else
        insertAtPath ((hierarchy.drop 1).dropLast) de.ast_name
          (HEntry.mk (some mangled_name) (pyClassName de.kind) []) st

/-- `build_hierarchical_structure_base` over the meta tree: fold the
namespace's `definations` through the grouping step. -/
def build_hierarchical_structure_base (t : Tree) (nsId : Nat)
    (exclude_constants : Bool) : HStructure :=
  match t.find? nsId with
  | none => []
  | some ns => ns.definations.foldl (buildStep t ns.ast_name exclude_constants) []

/-- Path lookup in the built structure: descend children by name, then look
up the final name. -/
def hLookupPath : HStructure → List String → String → Option HEntry
  | st, [], final => hLookup st final
  | st, n :: rest, final =>
    match hLookup st n with
    | none => none
    | some node => hLookupPath node.children rest final

/-- Path lookup projected to the fields an entry keeps across later
pass-through inserts. -/
def hLookupProj (st : HStructure) (p : List String) (final : String) :
    Option (Option String × String) :=
  (hLookupPath st p final).map (fun e => (e.mangled_name, e.typeName))

/-- Prefix test on name paths. -/
def isPrefixList : List String → List String → Bool
  | [], _ => true
  | _ :: _, [] => false
  | a :: as, b :: bs => a == b && isPrefixList as bs

/-- The intermediate path a member's entry is stored under: the names of
`hierarchy[1:-1]`. -/
def memberPathNames (t : Tree) (m : Nat) : List String :=
  (((parse_mangled_name (t.mangledName m)).drop 1).dropLast).map Prod.snd

/-- The full insertion point of a member: intermediate path plus its ast
name. -/
def pointOf (t : Tree) (m : Nat) : List String :=
  memberPathNames t m ++ [((t.find? m).map Entity.ast_name).getD ""]

end EmCppGen

namespace EmCppGen

/-! ## Theorems for claim C9 -/

theorem hLookup_cons (k : String) (v : HEntry) (rest : HStructure) (s : String) :
    hLookup ((k, v) :: rest) s = if k = s then some v else hLookup rest s := rfl

theorem hLookup_map_set (k : String) (v : HEntry) (s : String) : ∀ (st : HStructure),
    hLookup (st.map (fun p => if p.1 == k then (p.1, v) else p)) s
      = if k = s then (hLookup st k).map (fun _ => v) else hLookup st s := by
  intro st
  induction st with
  | nil => simp [hLookup]
  | cons p rest ih =>
    obtain ⟨k', v'⟩ := p
    by_cases hk : k' = k
    · subst hk
      by_cases hs : k' = s
      · subst hs
        simp [hLookup_cons, ih]
      · simp [hLookup_cons, hs]
        simpa [hs] using ih
    · by_cases hs : k' = s
      · subst hs
        have hks : ¬ k = k' := fun h => hk h.symm
        simp [hLookup_cons, hk, hks]
      · simp [hLookup_cons, hk, hs]
        simpa using ih

theorem hLookup_append_new (k : String) (v : HEntry) (s : String) : ∀ (st : HStructure),
    st.any (fun p => p.1 == k) = false →
    hLookup (st ++ [(k, v)]) s = if k = s then some v else hLookup st s := by
  intro st
  induction st with
  | nil =>
    intro _
    simp [hLookup]
  | cons p rest ih =>
    intro hany
    obtain ⟨k', v'⟩ := p
    simp only [List.any_cons, Bool.or_eq_false_iff] at hany
    by_cases hs : k' = s
    · subst hs
      have hkk : ¬ k = k' := by
        intro h
        subst h
        simp at hany
      simp [hLookup_cons, hkk]
    · by_cases hks : k = s
      · subst hks
        simp [hLookup_cons, hs, ih hany.2]
      · simp [hLookup_cons, hs, hks, ih hany.2]

theorem hLookup_isSome_of_any (k : String) : ∀ (st : HStructure),
    st.any (fun p => p.1 == k) = true → (hLookup st k).isSome = true := by
  intro st
  induction st with
  | nil => intro h; simp at h
  | cons p rest ih =>
    intro h
    obtain ⟨k', v'⟩ := p
    simp only [List.any_cons, Bool.or_eq_true] at h
    rw [hLookup_cons]
    by_cases hk : k' = k
    · rw [if_pos hk]
      rfl
    · rw [if_neg hk]
      rcases h with h | h
      · exact absurd (by simpa using h) hk
      · exact ih h

theorem hLookup_hSet (st : HStructure) (k : String) (v : HEntry) (s : String) :
    hLookup (hSet st k v) s = if k = s then some v else hLookup st s := by
  unfold hSet
  cases hany : st.any (fun p => p.1 == k) with
  | true =>
    rw [if_pos rfl, hLookup_map_set]
    by_cases hks : k = s
    · rw [if_pos hks, if_pos hks]
      have hsome := hLookup_isSome_of_any k st hany
      cases h : hLookup st k with
      | none => rw [h] at hsome; simp at hsome
      | some e => rfl
    · rw [if_neg hks, if_neg hks]
  | false =>
    rw [if_neg (by simp)]
    exact hLookup_append_new k v s st hany


theorem hLookupPath_cons_some {st : HStructure} {n : String} {node : HEntry}
    (h : hLookup st n = some node) (rest : List String) (f : String) :
    hLookupPath st (n :: rest) f = hLookupPath node.children rest f := by
  show (match hLookup st n with
    | none => none
    | some node => hLookupPath node.children rest f) = hLookupPath node.children rest f
  rw [h]

theorem hLookupPath_cons_none {st : HStructure} {n : String}
    (h : hLookup st n = none) (rest : List String) (f : String) :
    hLookupPath st (n :: rest) f = none := by
  show (match hLookup st n with
    | none => none
    | some node => hLookupPath node.children rest f) = none
  rw [h]

theorem hLookupPath_insert_self : ∀ (path : List (String × String)) (st : HStructure)
    (f : String) (e : HEntry),
    hLookupPath (insertAtPath path f e st) (path.map Prod.snd) f = some e := by
  intro path
  induction path with
  | nil =>
    intro st f e
    show hLookup (hSet st f e) f = some e
    rw [hLookup_hSet, if_pos rfl]
  | cons pn rest ih =>
    intro st f e
    obtain ⟨pt, nm⟩ := pn
    rw [List.map_cons]
    unfold insertAtPath
    cases hlk : hLookup st nm with
    | some node =>
      dsimp only
      rw [hLookupPath_cons_some (by rw [hLookup_hSet, if_pos rfl]) (rest.map Prod.snd) f]
      exact ih node.children f e
    | none =>
      dsimp only
      rw [hLookupPath_cons_some (by rw [hLookup_hSet, if_pos rfl]) (rest.map Prod.snd) f]
      exact ih [] f e

theorem hLookupProj_nil (st : HStructure) (f : String) :
    hLookupProj st [] f
      = (hLookup st f).map (fun e => (e.mangled_name, e.typeName)) := rfl

theorem hLookupProj_cons_some {st : HStructure} {n : String} {node : HEntry}
    (h : hLookup st n = some node) (rest : List String) (f : String) :
    hLookupProj st (n :: rest) f = hLookupProj node.children rest f := by
  unfold hLookupProj
  rw [hLookupPath_cons_some h]

theorem hLookupProj_cons_none {st : HStructure} {n : String}
    (h : hLookup st n = none) (rest : List String) (f : String) :
    hLookupProj st (n :: rest) f = none := by
  unfold hLookupProj
  rw [hLookupPath_cons_none h]
  rfl

theorem hLookupProj_insert_preserve : ∀ (p2 : List (String × String)) (f2 : String)
    (e2 : HEntry) (st : HStructure) (p1 : List String) (f1 : String)
    (v : Option String × String),
    hLookupProj st p1 f1 = some v →
    isPrefixList (p2.map Prod.snd ++ [f2]) (p1 ++ [f1]) = false →
    hLookupProj (insertAtPath p2 f2 e2 st) p1 f1 = some v := by
  intro p2
  induction p2 with
  | nil =>
    intro f2 e2 st p1 f1 v hv hpre
    show hLookupProj (hSet st f2 e2) p1 f1 = some v
    cases p1 with
    | nil =>
      have hne : ¬ f2 = f1 := by
        intro h
        subst h
        simp [isPrefixList] at hpre
      rw [hLookupProj_nil, hLookup_hSet, if_neg hne]
      exact hv
    | cons n p1rest =>
      have hne : ¬ f2 = n := by
        intro h
        subst h
        simp [isPrefixList] at hpre
      cases hlk : hLookup st n with
      | some node =>
        rw [hLookupProj_cons_some (by rw [hLookup_hSet, if_neg hne, hlk]) p1rest f1]
        rw [hLookupProj_cons_some hlk p1rest f1] at hv
        exact hv
      | none =>
        rw [hLookupProj_cons_none hlk p1rest f1] at hv
        exact absurd hv (by simp)
  | cons pn p2rest ih =>
    intro f2 e2 st p1 f1 v hv hpre
    obtain ⟨pt, nm⟩ := pn
    unfold insertAtPath
    cases hlk : hLookup st nm with
    | some node =>
      dsimp only
      cases p1 with
      | nil =>
        by_cases hnm : nm = f1
        · subst hnm
          rw [hLookupProj_nil, hLookup_hSet, if_pos rfl]
          rw [hLookupProj_nil, hlk] at hv
          simpa [HEntry.mangled_name, HEntry.typeName] using hv
        · rw [hLookupProj_nil, hLookup_hSet, if_neg hnm]
          rw [hLookupProj_nil] at hv
          exact hv
      | cons n p1rest =>
        by_cases hnm : nm = n
        · subst hnm
          have hpre' : isPrefixList (p2rest.map Prod.snd ++ [f2])
              (p1rest ++ [f1]) = false := by
            simpa [isPrefixList] using hpre
          rw [hLookupProj_cons_some (by rw [hLookup_hSet, if_pos rfl]) p1rest f1]
          rw [hLookupProj_cons_some hlk p1rest f1] at hv
          exact ih f2 e2 node.children p1rest f1 v hv hpre'
        · cases hlk1 : hLookup st n with
          | some node1 =>
            rw [hLookupProj_cons_some (by rw [hLookup_hSet, if_neg hnm, hlk1]) p1rest f1]
            rw [hLookupProj_cons_some hlk1 p1rest f1] at hv
            exact hv
          | none =>
            rw [hLookupProj_cons_none hlk1 p1rest f1] at hv
            exact absurd hv (by simp)
    | none =>
      dsimp only
      cases p1 with
      | nil =>
        by_cases hnm : nm = f1
        · subst hnm
          rw [hLookupProj_nil, hlk] at hv
          exact absurd hv (by simp)
        · rw [hLookupProj_nil, hLookup_hSet, if_neg hnm]
          rw [hLookupProj_nil] at hv
          exact hv
      | cons n p1rest =>
        by_cases hnm : nm = n
        · subst hnm
          rw [hLookupProj_cons_none hlk p1rest f1] at hv
          exact absurd hv (by simp)
        · cases hlk1 : hLookup st n with
          | some node1 =>
            rw [hLookupProj_cons_some (by rw [hLookup_hSet, if_neg hnm, hlk1]) p1rest f1]
            rw [hLookupProj_cons_some hlk1 p1rest f1] at hv
            exact hv
          | none =>
            rw [hLookupProj_cons_none hlk1 p1rest f1] at hv
            exact absurd hv (by simp)

theorem memberPathNames_short {t : Tree} {m : Nat}
    (h : (parse_mangled_name (t.mangledName m)).length ≤ 1) :
    memberPathNames t m = [] := by
  unfold memberPathNames
  rcases hp : parse_mangled_name (t.mangledName m) with _ | ⟨a, _ | ⟨b, l⟩⟩
  · rfl
  · rfl
  · rw [hp] at h
    simp only [List.length_cons] at h
    omega

theorem buildStep_preserves (t : Tree) (nsName : String) (excl : Bool)
    (st : HStructure) (m : Nat) (p1 : List String) (f1 : String)
    (v : Option String × String)
    (hv : hLookupProj st p1 f1 = some v)
    (hnc : isPrefixList (pointOf t m) (p1 ++ [f1]) = false) :
    hLookupProj (buildStep t nsName excl st m) p1 f1 = some v := by
  unfold buildStep
  cases hm : t.find? m with
  | none => exact hv
  | some de =>
    dsimp only
    by_cases h1 : (excl && (pyClassName de.kind == "ConstantValueMeta")) = true
    · rw [if_pos h1]
      exact hv
    · rw [if_neg h1]
      by_cases h2 : (decide (1 < (parse_mangled_name (t.mangledName m)).length)
          && !((parse_mangled_name (t.mangledName m)).headD ("", "")).2 == nsName) = true
      · rw [if_pos h2]
        exact hv
      · rw [if_neg h2]
        by_cases h3 : (parse_mangled_name (t.mangledName m)).length ≤ 1
        · rw [if_pos h3]
          refine hLookupProj_insert_preserve [] de.ast_name
            (HEntry.mk (some (t.mangledName m)) (pyClassName de.kind) []) st p1 f1 v hv ?_
          simpa [pointOf, memberPathNames_short h3, hm] using hnc
        · rw [if_neg h3]
          refine hLookupProj_insert_preserve
            (((parse_mangled_name (t.mangledName m)).drop 1).dropLast) de.ast_name
            (HEntry.mk (some (t.mangledName m)) (pyClassName de.kind) []) st p1 f1 v hv ?_
          simpa [pointOf, memberPathNames, hm] using hnc

theorem buildStep_establishes (t : Tree) (nsName : String) (excl : Bool)
    (st : HStructure) (d : Nat) (de : Entity)
    (hd : t.find? d = some de)
    (hnc : (excl && (pyClassName de.kind == "ConstantValueMeta")) = false)
    (hlen : ¬ (parse_mangled_name (t.mangledName d)).length ≤ 1)
    (hhead : (((parse_mangled_name (t.mangledName d)).headD ("", "")).2 == nsName) = true) :
    hLookupProj (buildStep t nsName excl st d) (memberPathNames t d) de.ast_name
      = some (some (t.mangledName d), pyClassName de.kind) := by
  unfold buildStep
  rw [hd]
  dsimp only
  rw [if_neg (by rw [hnc]; exact Bool.false_ne_true)]
  rw [if_neg (by
    simp
    intro _
    simpa using eq_of_beq hhead)]
  rw [if_neg hlen]
  unfold hLookupProj memberPathNames
  rw [hLookupPath_insert_self]
  rfl

theorem foldl_buildStep_preserves (t : Tree) (nsName : String) (excl : Bool) :
    ∀ (ds : List Nat) (st : HStructure) (p1 : List String) (f1 : String)
    (v : Option String × String),
    hLookupProj st p1 f1 = some v →
    (∀ m ∈ ds, isPrefixList (pointOf t m) (p1 ++ [f1]) = false) →
    hLookupProj (ds.foldl (buildStep t nsName excl) st) p1 f1 = some v := by
  intro ds
  induction ds with
  | nil =>
    intro st p1 f1 v hv _
    exact hv
  | cons m rest ih =>
    intro st p1 f1 v hv hall
    rw [List.foldl_cons]
    exact ih _ p1 f1 v
      (buildStep_preserves t nsName excl st m p1 f1 v hv (hall m (by simp)))
      (fun x hx => hall x (by simp [hx]))

theorem pointOf_eq {t : Tree} {d : Nat} {de : Entity} (hd : t.find? d = some de) :
    pointOf t d = memberPathNames t d ++ [de.ast_name] := by
  unfold pointOf
  rw [hd]
  rfl

/-- C9 (amended): `build_hierarchical_structure_base` contains an entry for a
namespace member at the nesting point re-derived from `parse_mangled_name` of
the member's mangled name — carrying the member's mangled name and Python
class name — provided the member is not skipped as a constant, its parsed
hierarchy head names the namespace itself (which fails for nested namespaces,
whose members' hierarchies start at the outermost ancestor), and no later
member of the namespace inserts at a point that is a prefix of this member's
insertion point. -/
theorem c9_hierarchical_structure (t : Tree) (nsId d : Nat) (ns de : Entity)
    (excl : Bool) (pre post : List Nat)
    (hns : t.find? nsId = some ns)
    (hdefs : ns.definations = pre ++ d :: post)
    (hd : t.find? d = some de)
    (hnc : (excl && (pyClassName de.kind == "ConstantValueMeta")) = false)
    (hlen : ¬ (parse_mangled_name (t.mangledName d)).length ≤ 1)
    (hhead : (((parse_mangled_name (t.mangledName d)).headD ("", "")).2
      == ns.ast_name) = true)
    (hpost : ∀ m ∈ post, isPrefixList (pointOf t m) (pointOf t d) = false) :
    hLookupProj (build_hierarchical_structure_base t nsId excl)
        (memberPathNames t d) de.ast_name
      = some (some (t.mangledName d), pyClassName de.kind) := by
  unfold build_hierarchical_structure_base
  rw [hns]
  dsimp only
  rw [hdefs, List.foldl_append, List.foldl_cons]
  refine foldl_buildStep_preserves t ns.ast_name excl post _ (memberPathNames t d)
    de.ast_name _ ?_ ?_
  · exact buildStep_establishes t ns.ast_name excl
      (pre.foldl (buildStep t ns.ast_name excl) []) d de hd hnc hlen hhead
  · intro m hm
    rw [← pointOf_eq hd]
    exact hpost m hm

/-- A nested namespace `B::A` whose single class member `X` is dropped
entirely by `build_hierarchical_structure_base` run on `A`. -/
def exTreeC9 : Tree :=
  ⟨[(0, { ast_name := "demo", kind := .project, parent := none,
          namespaces := [("B", 1)] }),
    (1, { ast_name := "B", kind := .nspace, parent := some 0,
          namespaces := [("A", 2)] }),
    (2, { ast_name := "A", kind := .nspace, parent := some 1,
          definations := [3] }),
    (3, { ast_name := "X", kind := .cls, parent := some 2 })]⟩

/-- C9, counterexample to the unamended claim: namespace `A`, nested inside
`B`, has the class `X` as its direct non-constant member, yet
`build_hierarchical_structure_base` on `A` returns the empty structure — the
`hierarchy[0][1] != namespace.get_ast_name()` guard skips every member whose
parsed hierarchy starts at an outer ancestor of the namespace being built. -/
theorem c9_counterexample :
    ((exTreeC9.find? 2).map Entity.definations).getD [] = [3]
    ∧ (exTreeC9.find? 3).map Entity.kind = some EKind.cls
    ∧ exTreeC9.mangledName 3 = "N_B__N_A__C_X"
    ∧ parse_mangled_name (exTreeC9.mangledName 3)
        = [("namespace", "B"), ("namespace", "A"), ("class", "X")]
    ∧ (build_hierarchical_structure_base exTreeC9 2 true).length = 0 :=
  ⟨rfl, rfl, rfl, rfl, rfl⟩

/-- A top-level namespace `app` with a class `Point` and a nested class
`Point::Inner`, both listed in `app`'s `definations` (post-flatten shape). -/
def exTreeC9w : Tree :=
  ⟨[(0, { ast_name := "demo", kind := .project, parent := none,
          namespaces := [("app", 1)] }),
    (1, { ast_name := "app", kind := .nspace, parent := some 0,
          definations := [2, 3] }),
    (2, { ast_name := "Point", kind := .cls, parent := some 1 }),
    (3, { ast_name := "Inner", kind := .cls, parent := some 2 })]⟩

/-- C9 witness: building namespace `app`'s hierarchical structure places its
class `Point` at the top level with its mangled name and Python class name. -/
theorem c9_hierarchical_structure_witness :
    hLookupProj (build_hierarchical_structure_base exTreeC9w 1 true)
        (memberPathNames exTreeC9w 2) "Point"
      = some (some "N_app__C_Point", "ClassMeta") :=
  c9_hierarchical_structure exTreeC9w 1 2
    { ast_name := "app", kind := .nspace, parent := some 0, definations := [2, 3] }
    { ast_name := "Point", kind := .cls, parent := some 1 }
    true [] [3] rfl rfl rfl (by decide) (by decide) (by decide) (by decide)

end EmCppGen
